import Mathlib

/-!
Verification of the documentation model of the `warp` route/documentation
library, shallowly embedded from `src/document.rs` and `src/filter/map.rs`.

Modelling conventions:
* Rust `String`/`&str` values are embedded as `List Char` (named `Str`);
  `chars` converts a Lean string literal.
* Rust `HashSet<T>` collections whose `Hash`/`PartialEq` implementations
  compare only a key (name / status / mime) are embedded as insertion-ordered
  lists; `HashSet::insert` keeps the existing element on a key collision, which
  `hsetInsert` reproduces.  Iteration order of the model is insertion order.
* `serde_json::Value` is an external type; `JsValue` stands in for it as an
  abstract payload that the code only moves around.
* Fallible conversion (the `unimplemented!()` branch of `to_openapi` for
  unsupported HTTP methods) is embedded with `Option`: `none` is the panic.
* Builder methods whose Rust name collides with a field of the same struct
  are suffixed with a prime (for example `DocumentedResponse.description'`).
-/

abbrev Str := List Char

def chars (s : String) : Str := s.data

/-- Decimal digit characters of a natural number, most significant first;
this embeds what Rust's `format!("{}", n)` produces for an unsigned integer. -/
def natCharsAux : Nat → Str → Str
  | n, acc =>
    if n < 10 then Nat.digitChar n :: acc
    else natCharsAux (n / 10) (Nat.digitChar (n % 10) :: acc)
termination_by n _ => n
decreasing_by simp_wf; omega

def natChars (n : Nat) : Str := natCharsAux n []

/-- Numeric value of a digit string, used to prove `natChars` injective. -/
def digitsVal (s : Str) : Nat := s.foldl (fun a c => 10 * a + (c.toNat - 48)) 0

/-- Embeds `str::starts_with`: `startsWith pat s` is true iff `pat` is a
prefix of `s`. -/
def startsWith : Str → Str → Bool
  | [], _ => true
  | _ :: _, [] => false
  | a :: as, b :: bs => a == b && startsWith as bs

/-- Embeds `str::replace`: replaces every leftmost non-overlapping occurrence
of `pat` in the subject by `rep`. -/
def listReplace (pat rep : Str) : Str → Str
  | [] => []
  | c :: t =>
    if startsWith pat (c :: t) && !pat.isEmpty then
      rep ++ listReplace pat rep (t.drop (pat.length - 1))
    else c :: listReplace pat rep t
termination_by s => s.length
decreasing_by
  all_goals simp_wf
  all_goals first
    | (have hd := List.length_drop (pat.length - 1) t
       omega)
    | omega

/-- Scans a path template and returns the contents of each brace-delimited
group, in order.  On well-formed paths these are exactly the positional
placeholders, so this function counts and lists the placeholders of a path. -/
def placeholders : Str → List Str
  | [] => []
  | c :: t =>
    if c = '{' then
      t.takeWhile (fun d => d ≠ '}') :: placeholders ((t.dropWhile (fun d => d ≠ '}')).drop 1)
    else placeholders t
termination_by s => s.length
decreasing_by
  all_goals simp_wf
  all_goals first
    | (have h1 : (t.dropWhile (fun d => !decide (d = '}'))).length ≤ t.length :=
        (List.dropWhile_sublist _).length_le
       have h2 := List.length_drop 1 (t.dropWhile (fun d => !decide (d = '}')))
       omega)
    | omega

/-- A string containing neither brace character. -/
def braceFree (s : Str) : Prop := ∀ c ∈ s, c ≠ '{' ∧ c ≠ '}'

instance (s : Str) : Decidable (braceFree s) :=
  inferInstanceAs (Decidable (∀ c ∈ s, c ≠ '{' ∧ c ≠ '}'))

/-- A parameter name that cannot collide with placeholder syntax: it contains
no braces and at least one non-digit character. -/
def goodName (s : Str) : Prop := braceFree s ∧ ∃ c ∈ s, ¬ c.isDigit = true

instance (s : Str) : Decidable (goodName s) :=
  inferInstanceAs (Decidable (braceFree s ∧ ∃ c ∈ s, ¬ c.isDigit = true))

/-- Wraps a string in braces; `braceWrap (natChars i)` is the placeholder
`{i}` that `format!("{{{}}}", i)` produces. -/
def braceWrap (s : Str) : Str := '{' :: (s ++ ['}'])

/-- Embeds `http::Method`.  The eight methods matched by `to_openapi` are
listed first; `CONNECT` and extension methods also inhabit the Rust type and
fall into the `unimplemented!()` arm. -/
inductive Method where
  | GET | POST | PUT | DELETE | HEAD | OPTIONS | PATCH | TRACE | CONNECT
  | extension (name : Str)
  deriving DecidableEq

/-- True exactly for the methods that have a slot in `to_openapi`'s match. -/
def Method.isSupported : Method → Bool
  | .GET | .POST | .PUT | .DELETE | .HEAD | .OPTIONS | .PATCH | .TRACE => true
  | _ => false

/-- Abstract stand-in for the external `serde_json::Value` payload carried in
`example` fields; the documentation code never inspects it. -/
inductive JsValue where
  | null
  | boolean (b : Bool)
  | number (n : Int)
  | str (s : Str)
  deriving DecidableEq

inductive InternalDocumentedType where
  | Boolean | Float | Integer | String
  deriving DecidableEq

/-- Embeds the `DocumentedType` enum; `HashMap<String, DocumentedType>` for
object properties is embedded as an association list. -/
inductive DocumentedType where
  | Array (ty : DocumentedType) (description : Option Str) (example_ : Option JsValue)
      (nullable : Option Bool)
  | Map (value_type : DocumentedType) (description : Option Str) (example_ : Option JsValue)
      (nullable : Option Bool)
  | Object (properties : List (Str × DocumentedType)) (description : Option Str)
      (example_ : Option JsValue) (nullable : Option Bool)
  | OneOf (variants : List DocumentedType) (description : Option Str)
      (example_ : Option JsValue) (nullable : Option Bool)
  | Primitive (ty : InternalDocumentedType) (description : Option Str)
      (example_ : Option JsValue) (nullable : Option Bool)

namespace document

def boolean : DocumentedType := .Primitive .Boolean none none none

def float : DocumentedType := .Primitive .Float none none none

def integer : DocumentedType := .Primitive .Integer none none none

def string : DocumentedType := .Primitive .String none none none

def object (fields : List (Str × DocumentedType)) : DocumentedType :=
  .Object fields none none none

def array (ty : DocumentedType) : DocumentedType := .Array ty none none none

def one_of (variants : List DocumentedType) : DocumentedType :=
  .OneOf variants none none none

def map (value_type : DocumentedType) : DocumentedType := .Map value_type none none none

end document

/-- Embeds `DocumentedType::description`, which overwrites the description of
whichever variant the value is. -/
def DocumentedType.description (t : DocumentedType) (d : Str) : DocumentedType :=
  match t with
  | .Array ty _ e nb => .Array ty (some d) e nb
  | .Map vt _ e nb => .Map vt (some d) e nb
  | .Object ps _ e nb => .Object ps (some d) e nb
  | .OneOf vs _ e nb => .OneOf vs (some d) e nb
  | .Primitive ty _ e nb => .Primitive ty (some d) e nb

/-- Embeds `DocumentedType::example` (serialization to `serde_json::Value` is
external, so the model takes the payload directly). -/
def DocumentedType.example_ (t : DocumentedType) (v : JsValue) : DocumentedType :=
  match t with
  | .Array ty d _ nb => .Array ty d (some v) nb
  | .Map vt d _ nb => .Map vt d (some v) nb
  | .Object ps d _ nb => .Object ps d (some v) nb
  | .OneOf vs d _ nb => .OneOf vs d (some v) nb
  | .Primitive ty d _ nb => .Primitive ty d (some v) nb

/-- Embeds `DocumentedType::nullable`. -/
def DocumentedType.nullable (t : DocumentedType) (b : Bool) : DocumentedType :=
  match t with
  | .Array ty d e _ => .Array ty d e (some b)
  | .Map vt d e _ => .Map vt d e (some b)
  | .Object ps d e _ => .Object ps d e (some b)
  | .OneOf vs d e _ => .OneOf vs d e (some b)
  | .Primitive ty d e _ => .Primitive ty d e (some b)

structure DocumentedCookie where
  name : Str
  description : Option Str
  required : Bool
  deriving DecidableEq

def document.cookie (name : Str) : DocumentedCookie := ⟨name, none, true⟩

def DocumentedCookie.description' (c : DocumentedCookie) (d : Str) : DocumentedCookie :=
  { c with description := some d }

def DocumentedCookie.required' (c : DocumentedCookie) (r : Bool) : DocumentedCookie :=
  { c with required := r }

structure DocumentedHeader where
  name : Str
  description : Option Str
  required : Bool
  deriving DecidableEq

def document.header (name : Str) : DocumentedHeader := ⟨name, none, true⟩

def DocumentedHeader.description' (h : DocumentedHeader) (d : Str) : DocumentedHeader :=
  { h with description := some d }

def DocumentedHeader.required' (h : DocumentedHeader) (r : Bool) : DocumentedHeader :=
  { h with required := r }

structure DocumentedParameter where
  name : Str
  description : Option Str
  type_ : DocumentedType
  required : Bool

def document.parameter (name : Str) (type_ : DocumentedType) : DocumentedParameter :=
  ⟨name, none, type_, true⟩

def DocumentedParameter.description' (p : DocumentedParameter) (d : Str) : DocumentedParameter :=
  { p with description := some d }

def DocumentedParameter.required' (p : DocumentedParameter) (r : Bool) : DocumentedParameter :=
  { p with required := r }

structure DocumentedQuery where
  name : Str
  description : Option Str
  type_ : DocumentedType
  required : Bool

def document.query (name : Str) (type_ : DocumentedType) : DocumentedQuery :=
  ⟨name, none, type_, true⟩

def DocumentedQuery.description' (q : DocumentedQuery) (d : Str) : DocumentedQuery :=
  { q with description := some d }

def DocumentedQuery.required' (q : DocumentedQuery) (r : Bool) : DocumentedQuery :=
  { q with required := r }

structure DocumentedBody where
  body : DocumentedType
  mime : Option Str

/-- Embeds `DocumentedBody::default()`: an empty object schema, no mime. -/
def DocumentedBody.default : DocumentedBody := ⟨document.object [], none⟩

def DocumentedBody.body' (b : DocumentedBody) (type_ : DocumentedType) : DocumentedBody :=
  { b with body := type_ }

def DocumentedBody.mime' (b : DocumentedBody) (m : Str) : DocumentedBody :=
  { b with mime := some m }

structure DocumentedResponse where
  body : List DocumentedBody
  description : Str
  headers : List DocumentedHeader
  status : Nat

/-- Embeds `DocumentedResponse::default()`. -/
def DocumentedResponse.default : DocumentedResponse := ⟨[], [], [], 0⟩

/-- Embeds `HashSet::insert` for a set whose `PartialEq`/`Hash` compare via
`eqv`: if a key-equal element is present the set is unchanged (the existing
element and its attributes survive), otherwise the new element is added. -/
def hsetInsert (eqv : α → α → Bool) (s : List α) (a : α) : List α :=
  if s.any (fun b => eqv b a) then s else s ++ [a]

/-- The `PartialEq` of `DocumentedHeader`: equality by `name` only. -/
def headerEq (a b : DocumentedHeader) : Bool := a.name == b.name

/-- The `PartialEq` of `DocumentedCookie`: equality by `name` only. -/
def cookieEq (a b : DocumentedCookie) : Bool := a.name == b.name

/-- The `PartialEq` of `DocumentedResponse`: equality by `status` only. -/
def responseEq (a b : DocumentedResponse) : Bool := a.status == b.status

/-- The `PartialEq` of `DocumentedBody`: equality by `mime` only. -/
def bodyEq (a b : DocumentedBody) : Bool := a.mime == b.mime

def DocumentedResponse.description' (r : DocumentedResponse) (d : Str) : DocumentedResponse :=
  { r with description := d }

def DocumentedResponse.body' (r : DocumentedResponse) (b : DocumentedBody) : DocumentedResponse :=
  { r with body := hsetInsert bodyEq r.body b }

def DocumentedResponse.header (r : DocumentedResponse) (h : DocumentedHeader) : DocumentedResponse :=
  { r with headers := hsetInsert headerEq r.headers h }

def DocumentedResponse.status' (r : DocumentedResponse) (s : Nat) : DocumentedResponse :=
  { r with status := s }

/-- Embeds the free function `document::response(status, body)`. -/
def document.response (status : Nat) (body : Option DocumentedBody) : DocumentedResponse :=
  let response := DocumentedResponse.default.status' status
  match body with
  | some b => response.body' b
  | none => response

/-- Embeds the free function `document::body(type_)`. -/
def document.body (type_ : DocumentedType) : DocumentedBody :=
  DocumentedBody.default.body' type_

structure RouteDocumentation where
  bodies : List DocumentedBody
  cookies : List DocumentedCookie
  description : Option Str
  headers : List DocumentedHeader
  method : Method
  parameters : List DocumentedParameter
  path : Str
  queries : List DocumentedQuery
  responses : List DocumentedResponse
  tags : List Str

/-- Embeds `RouteDocumentation::default()`: method POST, path `"/"`, all
collections empty. -/
def RouteDocumentation.default : RouteDocumentation :=
  { bodies := []
    cookies := []
    description := none
    headers := []
    method := .POST
    parameters := []
    path := chars "/"
    queries := []
    responses := []
    tags := [] }

def RouteDocumentation.body (r : RouteDocumentation) (b : DocumentedBody) : RouteDocumentation :=
  { r with bodies := hsetInsert bodyEq r.bodies b }

def RouteDocumentation.cookie (r : RouteDocumentation) (c : DocumentedCookie) : RouteDocumentation :=
  { r with cookies := hsetInsert cookieEq r.cookies c }

def RouteDocumentation.description' (r : RouteDocumentation) (d : Str) : RouteDocumentation :=
  { r with description := some d }

def RouteDocumentation.header (r : RouteDocumentation) (h : DocumentedHeader) : RouteDocumentation :=
  { r with headers := hsetInsert headerEq r.headers h }

/-- Embeds `RouteDocumentation::push_path`: a `'/'` separator is appended
first whenever the current path does not already end with `'/'`. -/
def RouteDocumentation.push_path (r : RouteDocumentation) (s : Str) : RouteDocumentation :=
  { r with path := (if r.path.getLast? = some '/' then r.path else r.path ++ ['/']) ++ s }

/-- Embeds `RouteDocumentation::parameter`: pushes the placeholder
`{parameters.len()}` onto the path, then appends the parameter descriptor. -/
def RouteDocumentation.parameter (r : RouteDocumentation) (p : DocumentedParameter) :
    RouteDocumentation :=
  let r' := r.push_path (braceWrap (natChars r.parameters.length))
  { r' with parameters := r'.parameters ++ [p] }

def RouteDocumentation.query (r : RouteDocumentation) (q : DocumentedQuery) : RouteDocumentation :=
  { r with queries := r.queries ++ [q] }

def RouteDocumentation.response (r : RouteDocumentation) (resp : DocumentedResponse) :
    RouteDocumentation :=
  { r with responses := hsetInsert responseEq r.responses resp }

def RouteDocumentation.tag (r : RouteDocumentation) (t : Str) : RouteDocumentation :=
  { r with tags := r.tags ++ [t] }

/-- Embeds `RouteDocumentation::pretty_path`: folds over the enumerated
parameters, replacing each occurrence of `{i}` by `{name_i}` in turn. -/
def RouteDocumentation.pretty_path (r : RouteDocumentation) : Str :=
  r.parameters.enum.foldl
    (fun path ip => listReplace (braceWrap (natChars ip.1)) (braceWrap ip.2.name) path)
    r.path

/-- One call to a mutating method of `RouteDocumentation`; a list of these is
an arbitrary construction history for a record. -/
inductive RouteOp where
  | body (b : DocumentedBody)
  | cookie (c : DocumentedCookie)
  | description (d : Str)
  | header (h : DocumentedHeader)
  | parameter (p : DocumentedParameter)
  | push_path (s : Str)
  | query (q : DocumentedQuery)
  | response (resp : DocumentedResponse)
  | tag (t : Str)

def applyOp (r : RouteDocumentation) : RouteOp → RouteDocumentation
  | .body b => r.body b
  | .cookie c => r.cookie c
  | .description d => r.description' d
  | .header h => r.header h
  | .parameter p => r.parameter p
  | .push_path s => r.push_path s
  | .query q => r.query q
  | .response resp => r.response resp
  | .tag t => r.tag t

/-- The record built from the default record by a sequence of mutator calls. -/
def buildRoute (ops : List RouteOp) : RouteDocumentation :=
  ops.foldl applyOp RouteDocumentation.default

/-- A mutator call whose argument cannot smuggle placeholder syntax into the
path: only `push_path` takes path text, so only it is constrained. -/
def RouteOp.SafePath : RouteOp → Prop
  | .push_path s => braceFree s
  | _ => True

instance (op : RouteOp) : Decidable op.SafePath :=
  match op with
  | .body _ => .isTrue trivial
  | .cookie _ => .isTrue trivial
  | .description _ => .isTrue trivial
  | .header _ => .isTrue trivial
  | .parameter _ => .isTrue trivial
  | .push_path s => inferInstanceAs (Decidable (braceFree s))
  | .query _ => .isTrue trivial
  | .response _ => .isTrue trivial
  | .tag _ => .isTrue trivial

/-- Embeds `document::describe`: the documentation half of a filter is a
function from a partial record to a list of records, and `describe` runs it
on the default record. -/
def document.describe (filterDescribe : RouteDocumentation → List RouteDocumentation) :
    List RouteDocumentation :=
  filterDescribe RouteDocumentation.default

/-- Embeds `ExplicitDocumentation::describe`: applies the callback once to the
incoming record and returns exactly that one record. -/
def explicitDescribe (callback : RouteDocumentation → RouteDocumentation)
    (route : RouteDocumentation) : List RouteDocumentation :=
  [callback route]

/-- Embeds `<Map as DocumentedFilter>::document` from `src/filter/map.rs`:
runs the child filter's documentation pass, then flat-maps the output type's
own documentation contribution `D::document` over the resulting records. -/
def mapDocument (filterDoc : RouteDocumentation → List RouteDocumentation)
    (replyDoc : RouteDocumentation → List RouteDocumentation)
    (item : RouteDocumentation) : List RouteDocumentation :=
  (filterDoc item).flatMap replyDoc

/-- Modelled from the spec: the `DocumentedReply` implementation of an output
type that "declares no documentation capability" passes each record through
unchanged as a singleton (the trait itself is not part of the sources under
`src/`). -/
def trivialReplyDoc (item : RouteDocumentation) : List RouteDocumentation := [item]

/-! Path templates as atom lists.

A well-formed path is an interleaving of brace-free literal segments and
brace-delimited groups; the groups are either positional placeholders `{j}`
or substituted parameter names `{g}`.  `pretty_path`'s replace-fold is
analysed through this decomposition. -/

inductive PathAtom where
  | seg (s : Str)
  | idx (j : Nat)
  | tok (g : Str)
  deriving DecidableEq

def PathAtom.render : PathAtom → Str
  | .seg s => s
  | .idx j => braceWrap (natChars j)
  | .tok g => braceWrap g

/-- Well-formed atom: literal segments are brace-free, substituted names are
brace-free with at least one non-digit character. -/
def PathAtom.WF : PathAtom → Prop
  | .seg s => braceFree s
  | .idx _ => True
  | .tok g => goodName g

instance (a : PathAtom) : Decidable a.WF :=
  match a with
  | .seg s => inferInstanceAs (Decidable (braceFree s))
  | .idx _ => .isTrue trivial
  | .tok g => inferInstanceAs (Decidable (goodName g))

def renderAtoms (ats : List PathAtom) : Str := (ats.map PathAtom.render).flatten

/-- The placeholder indices of an atom list, in order. -/
def atomsIdx (ats : List PathAtom) : List Nat :=
  ats.filterMap fun a => match a with | .idx j => some j | _ => none

/-- The effect on one atom of replacing every occurrence of `{i}` by
`{name}`. -/
def substAtom (i : Nat) (name : Str) : PathAtom → PathAtom
  | .idx j => if j = i then .tok name else .idx j
  | a => a

/-- Simultaneous substitution of the names `names.get (j - k)` for the
placeholders `{j}`, `k ≤ j < k + names.length`; with `k = 0` this is the
specification's reading of `pretty_path`: each placeholder `{i}` becomes the
name of the i-th parameter. -/
def substFrom (k : Nat) (names : List Str) : PathAtom → PathAtom
  | .idx j => if k ≤ j ∧ j < k + names.length then .tok (names.getD (j - k) []) else .idx j
  | a => a

/-! The OpenAPI document model (the fragment of the external `openapiv3`
crate that `to_openapi` constructs).  `ReferenceOr` is collapsed away since
the code only ever builds the `Item` variant; struct fields that keep their
`Default` value in every construction site are omitted. -/

structure SchemaData where
  description : Option Str
  example_ : Option JsValue
  nullable : Bool
  deriving DecidableEq

mutual
inductive Schema where
  | mk (schema_data : SchemaData) (schema_kind : SchemaKind)
inductive SchemaKind where
  | type (t : ApiType)
  | oneOf (one_of : List Schema)
inductive ApiType where
  | boolean
  | number
  | integer
  | string
  | array (items : Schema)
  | object (properties : List (Str × Schema)) (additional_properties : Option Schema)
end

def Schema.schema_data : Schema → SchemaData
  | .mk d _ => d

def Schema.schema_kind : Schema → SchemaKind
  | .mk _ k => k

/-- The scalar schema kind that `to_openapi`'s inner match assigns to each
primitive descriptor kind (Float becomes Number). -/
def scalarApiType : InternalDocumentedType → ApiType
  | .Boolean => .boolean
  | .Float => .number
  | .Integer => .integer
  | .String => .string

mutual
/-- Embeds the inner function `documented_type_to_openapi` of `to_openapi`:
recursive conversion of a type descriptor to a schema, defaulting `nullable`
to false when unset and copying `description`/`example` through. -/
def documented_type_to_openapi : DocumentedType → Schema
  | .Array ty d e nb =>
    .mk ⟨d, e, nb.getD false⟩ (.type (.array (documented_type_to_openapi ty)))
  | .Map vt d e nb =>
    .mk ⟨d, e, nb.getD false⟩ (.type (.object [] (some (documented_type_to_openapi vt))))
  | .Object props d e nb =>
    .mk ⟨d, e, nb.getD false⟩ (.type (.object (dtProps props) none))
  | .OneOf vs d e nb => .mk ⟨d, e, nb.getD false⟩ (.oneOf (dtList vs))
  | .Primitive ty d e nb =>
    .mk ⟨d, e, nb.getD false⟩
      (.type (match ty with
        | .Boolean => .boolean
        | .Float => .number
        | .Integer => .integer
        | .String => .string))
def dtProps : List (Str × DocumentedType) → List (Str × Schema)
  | [] => []
  | (n, t) :: rest => (n, documented_type_to_openapi t) :: dtProps rest
def dtList : List DocumentedType → List Schema
  | [] => []
  | t :: rest => documented_type_to_openapi t :: dtList rest
end

structure ParameterData where
  name : Str
  description : Option Str
  required : Bool
  deprecated : Option Bool
  schema : Schema

/-- The four parameter locations of the `openapiv3::Parameter` enum. -/
inductive Parameter where
  | path (d : ParameterData)
  | header (d : ParameterData)
  | query (d : ParameterData)
  | cookie (d : ParameterData)

structure MediaType where
  schema : Option Schema

structure ApiHeader where
  description : Option Str
  required : Bool
  deprecated : Option Bool
  schema : Schema

structure ApiResponse where
  description : Str
  headers : List (Str × ApiHeader)
  content : List (Str × MediaType)

structure RequestBody where
  content : List (Str × MediaType)
  required : Bool

structure Operation where
  tags : List Str
  summary : Option Str
  description : Option Str
  parameters : List Parameter
  request_body : Option RequestBody
  responses : List (Nat × ApiResponse)

/-- First item of Rust's `str::lines` iterator: `none` on the empty string,
otherwise the text up to the first newline, with a trailing `'\r'` removed. -/
def lineFirst (d : Str) : Option Str :=
  if d = [] then none
  else
    some (let l := d.takeWhile (fun c => c ≠ '\n')
          if l.getLast? = some '\r' then l.dropLast else l)

/-- A plain string-typed schema with default data, used for header, query and
cookie parameters. -/
def stringSchema : Schema := .mk ⟨none, none, false⟩ (.type .string)

/-- Embeds the per-route body of `to_openapi`'s loop: the `Operation` built
from one `RouteDocumentation`, with responses sorted ascending by status. -/
def buildOperation (route : RouteDocumentation) : Operation :=
  { tags := route.tags
    summary :=
      match route.description with
      | some d => lineFirst d
      | none => none
    description := route.description
    request_body := some
      { required := !route.bodies.isEmpty
        content := route.bodies.map fun b =>
          (b.mime.getD (chars "*/*"), ⟨some (documented_type_to_openapi b.body)⟩) }
    parameters :=
      (route.parameters.map fun p =>
        Parameter.path ⟨p.name, p.description, p.required, some false,
          documented_type_to_openapi p.type_⟩)
      ++ (route.headers.map fun h =>
        Parameter.header ⟨h.name, h.description, h.required, some false, stringSchema⟩)
      ++ (route.queries.map fun q =>
        Parameter.query ⟨q.name, q.description, q.required, some false, stringSchema⟩)
      ++ (route.cookies.map fun c =>
        Parameter.cookie ⟨c.name, c.description, c.required, some false, stringSchema⟩)
    responses :=
      (route.responses.mergeSort fun a b => decide (a.status ≤ b.status)).map fun resp =>
        (resp.status,
          { description := resp.description
            headers := resp.headers.map fun h =>
              (h.name, ⟨h.description, h.required, none, stringSchema⟩)
            content := resp.body.map fun b =>
              (b.mime.getD (chars "*/*"), ⟨some (documented_type_to_openapi b.body)⟩) }) }

structure PathItem where
  get : Option Operation
  post : Option Operation
  put : Option Operation
  delete : Option Operation
  head : Option Operation
  options : Option Operation
  patch : Option Operation
  trace : Option Operation

/-- Embeds `PathItem::default()`. -/
def PathItem.empty : PathItem := ⟨none, none, none, none, none, none, none, none⟩

/-- Embeds the method match at the end of `to_openapi`'s loop:
`item.get = item.get.take().or(Some(operation))` keeps an already-present
operation (first wins); the wildcard arm is `unimplemented!()`, embedded as
`none`. -/
def slotUpdate (m : Method) (op : Operation) (item : PathItem) : Option PathItem :=
  match m with
  | .GET => some { item with get := item.get.or (some op) }
  | .POST => some { item with post := item.post.or (some op) }
  | .PUT => some { item with put := item.put.or (some op) }
  | .DELETE => some { item with delete := item.delete.or (some op) }
  | .HEAD => some { item with head := item.head.or (some op) }
  | .OPTIONS => some { item with options := item.options.or (some op) }
  | .PATCH => some { item with patch := item.patch.or (some op) }
  | .TRACE => some { item with trace := item.trace.or (some op) }
  | _ => none

/-- Reads the operation slot of a path item for a method; unsupported methods
have no slot. -/
def slotGet (m : Method) (item : PathItem) : Option Operation :=
  match m with
  | .GET => item.get
  | .POST => item.post
  | .PUT => item.put
  | .DELETE => item.delete
  | .HEAD => item.head
  | .OPTIONS => item.options
  | .PATCH => item.patch
  | .TRACE => item.trace
  | _ => none

/-- Lookup in an insertion-ordered association list (the `IndexMap` model). -/
def assocFind (k : Str) : List (Str × β) → Option β
  | [] => none
  | (k', v) :: rest => if k' = k then some v else assocFind k rest

/-- Write-back into an insertion-ordered association list: an existing key
keeps its position, a new key is appended (as `IndexMap::entry` does). -/
def assocSet (k : Str) (v : β) : List (Str × β) → List (Str × β)
  | [] => [(k, v)]
  | (k', v') :: rest => if k' = k then (k', v) :: rest else (k', v') :: assocSet k v rest

/-- Embeds the path-building loop of `to_openapi`: for each route, group by
pretty path, build the operation and store it in the method slot; `none` is
the `unimplemented!()` panic on an unsupported method. -/
def toOpenapiPaths (routes : List RouteDocumentation) : Option (List (Str × PathItem)) :=
  routes.foldlM
    (fun paths route =>
      (slotUpdate route.method (buildOperation route)
        ((assocFind route.pretty_path paths).getD PathItem.empty)).map
        fun item => assocSet route.pretty_path item paths)
    []

structure OpenAPI where
  openapi : Str
  paths : List (Str × PathItem)

/-- Embeds `document::to_openapi` (version string "3.0.0"); `none` is the
fatal `unimplemented!()` on a record with an unsupported method. -/
def to_openapi (routes : List RouteDocumentation) : Option OpenAPI :=
  (toOpenapiPaths routes).map fun paths => ⟨chars "3.0.0", paths⟩

/-! Concrete inputs used by witnesses and counterexamples. -/

def wR1 : RouteDocumentation := RouteDocumentation.default.description' (chars "first")

def wR2 : RouteDocumentation := RouteDocumentation.default

def wRoutes : List RouteDocumentation := [wR1, wR2]

def wC4r : RouteDocumentation :=
  (RouteDocumentation.default.response (document.response 404 none)).response
    (document.response 200 none)

def wC5r : RouteDocumentation :=
  RouteDocumentation.default.parameter (document.parameter (chars "id") document.integer)

def wC5atoms : List PathAtom := [.seg (chars "/"), .idx 0]

def wC5bad : RouteDocumentation :=
  (RouteDocumentation.default.parameter (document.parameter (chars "1") document.integer)).parameter
    (document.parameter (chars "z") document.integer)

def wC5bad2 : RouteDocumentation :=
  RouteDocumentation.default.parameter (document.parameter (chars "a{0}b") document.integer)

def wC2ops : List RouteOp :=
  [.parameter (document.parameter (chars "id") document.integer), .push_path (chars "users")]

/-! Decimal representation: support lemmas. -/

theorem natCharsAux_append (n : Nat) : ∀ acc, natCharsAux n acc = natCharsAux n [] ++ acc := by
  induction n using Nat.strong_induction_on with
  | _ n ih =>
    intro acc
    by_cases h : n < 10
    · conv_lhs => rw [natCharsAux.eq_def]
      conv_rhs => rw [natCharsAux.eq_def]
      simp [h]
    · conv_lhs => rw [natCharsAux.eq_def]
      conv_rhs => rw [natCharsAux.eq_def]
      simp only [if_neg h]
      rw [ih (n / 10) (by omega), ih (n / 10) (by omega) (Nat.digitChar (n % 10) :: [])]
      simp

theorem natChars_lt (n : Nat) (h : n < 10) : natChars n = [Nat.digitChar n] := by
  unfold natChars
  rw [natCharsAux.eq_def]
  simp [h]

theorem natChars_ge (n : Nat) (h : 10 ≤ n) :
    natChars n = natChars (n / 10) ++ [Nat.digitChar (n % 10)] := by
  unfold natChars
  conv_lhs => rw [natCharsAux.eq_def]
  simp only [show ¬ n < 10 by omega, if_false]
  rw [natCharsAux_append]

theorem digitChar_isDigit (k : Nat) (h : k < 10) : (Nat.digitChar k).isDigit = true := by
  interval_cases k <;> decide

theorem natChars_digits (n : Nat) : ∀ c ∈ natChars n, c.isDigit = true := by
  induction n using Nat.strong_induction_on with
  | _ n ih =>
    by_cases h : n < 10
    · rw [natChars_lt n h]
      simpa using digitChar_isDigit n h
    · rw [natChars_ge n (by omega)]
      intro c hc
      rcases List.mem_append.1 hc with hc | hc
      · exact ih (n / 10) (by omega) c hc
      · simp at hc
        subst hc
        exact digitChar_isDigit _ (by omega)

theorem natChars_ne_nil (n : Nat) : natChars n ≠ [] := by
  by_cases h : n < 10
  · rw [natChars_lt n h]; simp
  · rw [natChars_ge n (by omega)]; simp

theorem digitChar_toNat (k : Nat) (h : k < 10) : (Nat.digitChar k).toNat = 48 + k := by
  interval_cases k <;> decide

theorem digitsVal_append (s : Str) (c : Char) :
    digitsVal (s ++ [c]) = 10 * digitsVal s + (c.toNat - 48) := by
  unfold digitsVal
  rw [List.foldl_append]
  rfl

theorem digitsVal_natChars (n : Nat) : digitsVal (natChars n) = n := by
  induction n using Nat.strong_induction_on with
  | _ n ih =>
    by_cases h : n < 10
    · rw [natChars_lt n h]
      have := digitChar_toNat n h
      simp [digitsVal, this]
    · rw [natChars_ge n (by omega), digitsVal_append, ih (n / 10) (by omega),
        digitChar_toNat _ (by omega)]
      omega

theorem natChars_inj {m n : Nat} (h : natChars m = natChars n) : m = n := by
  have := congrArg digitsVal h
  rwa [digitsVal_natChars, digitsVal_natChars] at this

theorem isDigit_ne_braces {c : Char} (h : c.isDigit = true) : c ≠ '{' ∧ c ≠ '}' := by
  constructor <;> rintro rfl <;> exact absurd h (by decide)

theorem natChars_no_open (n : Nat) : '{' ∉ natChars n := fun h =>
  absurd rfl (isDigit_ne_braces (natChars_digits n _ h)).1

theorem natChars_no_close (n : Nat) : '}' ∉ natChars n := fun h =>
  absurd rfl (isDigit_ne_braces (natChars_digits n _ h)).2

/-! The replace function: support lemmas. -/

theorem startsWith_iff (pat : Str) : ∀ s, startsWith pat s = true ↔ pat <+: s := by
  induction pat with
  | nil => intro s; simp [startsWith]
  | cons a as ih =>
    intro s
    cases s with
    | nil => simp [startsWith]
    | cons b bs => simp [startsWith, List.cons_prefix_cons, ih, And.comm]

theorem listReplace_nil (pat rep : Str) : listReplace pat rep [] = [] := by
  simp [listReplace]

theorem listReplace_cons (pat rep : Str) (c : Char) (t : Str) :
    listReplace pat rep (c :: t) =
      if startsWith pat (c :: t) && !pat.isEmpty then
        rep ++ listReplace pat rep (t.drop (pat.length - 1))
      else c :: listReplace pat rep t := by
  rw [listReplace.eq_def]

theorem listReplace_cons_neg {pat : Str} (rep : Str) {c : Char} {t : Str}
    (h : ¬ pat <+: (c :: t)) : listReplace pat rep (c :: t) = c :: listReplace pat rep t := by
  rw [listReplace_cons, if_neg]
  intro hc
  rw [Bool.and_eq_true] at hc
  exact h ((startsWith_iff pat (c :: t)).mp hc.1)

theorem listReplace_not_infix {pat : Str} (rep : Str) : ∀ {s : Str}, ¬ pat <:+: s →
    listReplace pat rep s = s := by
  intro s
  induction s with
  | nil => intro _; exact listReplace_nil pat rep
  | cons c t ih =>
    intro h
    rw [listReplace_cons_neg rep (fun hp => h hp.isInfix),
      ih (fun hi => h (List.infix_cons hi))]

theorem listReplace_head (pat rep b : Str) (hp : pat ≠ []) :
    listReplace pat rep (pat ++ b) = rep ++ listReplace pat rep b := by
  cases pat with
  | nil => exact absurd rfl hp
  | cons p ps =>
    have hsw : (startsWith (p :: ps) ((p :: ps) ++ b) && !(p :: ps).isEmpty) = true := by
      rw [Bool.and_eq_true]
      exact ⟨(startsWith_iff _ _).mpr (List.prefix_append _ _), rfl⟩
    rw [show (p :: ps) ++ b = p :: (ps ++ b) from rfl, listReplace_cons]
    rw [show p :: (ps ++ b) = (p :: ps) ++ b from rfl, hsw, if_pos rfl]
    congr 1
    simp [List.drop_left]

theorem prefix_append_take {p a b : Str} (m : Nat) (h : p <+: a ++ b)
    (hl : p.length ≤ a.length + m) : p <+: a ++ b.take m := by
  have h1 : p = (a ++ b).take p.length := List.prefix_iff_eq_take.mp h
  have h2 : (a ++ b.take m).take p.length = (a ++ b).take p.length := by
    rw [List.take_append_eq_append_take, List.take_append_eq_append_take, List.take_take,
      Nat.min_eq_left (by omega)]
  rw [List.prefix_iff_eq_take, h2, ← h1]

theorem infix_split {pat a b : Str} (h : pat <:+: a ++ b) :
    pat <:+: a ∨ pat <:+: b ∨
      ∃ a2 b1, a2 ≠ [] ∧ b1 ≠ [] ∧ a2 <:+ a ∧ b1 <+: b ∧ pat = a2 ++ b1 := by
  obtain ⟨s, t, hst⟩ := h
  by_cases h1 : s.length + pat.length ≤ a.length
  · left
    have ha : (a ++ b).take a.length = a := List.take_left a b
    rw [← hst, List.append_assoc, List.take_append_eq_append_take,
      List.take_all_of_le (by omega), List.take_append_eq_append_take,
      List.take_all_of_le (by omega)] at ha
    exact ⟨s, _, by rw [← List.append_assoc] at ha; exact ha⟩
  · by_cases h2 : a.length ≤ s.length
    · right; left
      have hb : (a ++ b).drop a.length = b := List.drop_left a b
      rw [← hst, List.append_assoc, List.drop_append_eq_append_drop,
        Nat.sub_eq_zero_of_le h2, List.drop_zero] at hb
      exact ⟨s.drop a.length, t, by rw [← List.append_assoc] at hb; exact hb⟩
    · right; right
      have hms : s.length ≤ a.length := by omega
      have hm1 : a.length - s.length ≤ pat.length := by omega
      have hm1s : a.length - s.length < pat.length := by omega
      have hm2 : 0 < a.length - s.length := by omega
      have e0 : (s ++ (pat ++ t)).take a.length = a := by
        rw [← List.append_assoc, hst]; exact List.take_left a b
      have e1 : (s ++ (pat ++ t)).take a.length = s ++ pat.take (a.length - s.length) := by
        rw [List.take_append_eq_append_take, List.take_of_length_le hms,
          List.take_append_eq_append_take, Nat.sub_eq_zero_of_le hm1, List.take_zero,
          List.append_nil]
      have ha : s ++ pat.take (a.length - s.length) = a := by rw [← e1, e0]
      have f0 : (s ++ (pat ++ t)).drop a.length = b := by
        rw [← List.append_assoc, hst]; exact List.drop_left a b
      have f1 : (s ++ (pat ++ t)).drop a.length = pat.drop (a.length - s.length) ++ t := by
        rw [List.drop_append_eq_append_drop, List.drop_eq_nil_of_le hms, List.nil_append,
          List.drop_append_eq_append_drop, Nat.sub_eq_zero_of_le hm1, List.drop_zero]
      have hb : pat.drop (a.length - s.length) ++ t = b := by rw [← f1, f0]
      refine ⟨pat.take (a.length - s.length), pat.drop (a.length - s.length), ?_, ?_,
        ⟨s, ha⟩, ⟨t, hb⟩, (List.take_append_drop _ _).symm⟩
      · intro hnil
        have := congrArg List.length hnil
        rw [List.length_take, List.length_nil] at this
        omega
      · intro hnil
        have := congrArg List.length hnil
        rw [List.length_drop, List.length_nil] at this
        omega

theorem listReplace_append {pat : Str} (rep : Str) : ∀ (x y : Str),
    ¬ pat <:+: (x ++ y.take (pat.length - 1)) →
    listReplace pat rep (x ++ y) = x ++ listReplace pat rep y := by
  intro x
  induction x with
  | nil => intro y _; rfl
  | cons c x' ih =>
    intro y h
    have hg : ¬ pat <+: (c :: (x' ++ y)) := by
      intro hp
      apply h
      have hlen : pat.length ≤ (c :: x').length + (pat.length - 1) := by
        simp; omega
      exact (prefix_append_take (pat.length - 1) (by simpa using hp) hlen).isInfix
    rw [show (c :: x') ++ y = c :: (x' ++ y) from rfl, listReplace_cons_neg rep hg,
      ih y (fun hi => h (List.infix_cons hi))]
    rfl

/-! Path atoms: rendering and occurrence analysis. -/

theorem renderAtoms_nil : renderAtoms [] = [] := rfl

theorem renderAtoms_cons (a : PathAtom) (ats : List PathAtom) :
    renderAtoms (a :: ats) = a.render ++ renderAtoms ats := by
  simp [renderAtoms]

theorem renderAtoms_append (xs ys : List PathAtom) :
    renderAtoms (xs ++ ys) = renderAtoms xs ++ renderAtoms ys := by
  simp [renderAtoms]

theorem braceWrap_ne_nil (s : Str) : braceWrap s ≠ [] := by simp [braceWrap]

theorem braceWrap_length (s : Str) : (braceWrap s).length = s.length + 2 := by
  simp [braceWrap]

theorem brace_mid_eq : ∀ (g : Str) {d x y : Str}, '}' ∉ g → '}' ∉ d →
    g ++ '}' :: x = d ++ '}' :: y → g = d ∧ x = y := by
  intro g
  induction g with
  | nil =>
    intro d x y _ hd h
    cases d with
    | nil => simpa using h
    | cons c d' =>
      rw [List.nil_append] at h
      simp only [List.cons_append, List.cons.injEq] at h
      exact absurd (h.1 ▸ List.mem_cons_self c d') hd
  | cons c g' ih =>
    intro d x y hg hd h
    cases d with
    | nil =>
      rw [List.nil_append] at h
      simp only [List.cons_append, List.cons.injEq] at h
      exact absurd (h.1 ▸ List.mem_cons_self c g') hg
    | cons c' d' =>
      simp only [List.cons_append, List.cons.injEq] at h
      have := ih (fun hm => hg (List.mem_cons_of_mem c hm))
        (fun hm => hd (List.mem_cons_of_mem c' hm)) h.2
      exact ⟨by rw [h.1, this.1], this.2⟩

theorem ph_not_in_braceGroup {i : Nat} {g : Str} (hop : '{' ∉ g) (hcl : '}' ∉ g)
    (hne : g ≠ natChars i) : ¬ braceWrap (natChars i) <:+: braceWrap g := by
  rintro ⟨u, v, huv⟩
  cases u with
  | nil =>
    rw [List.nil_append] at huv
    simp only [braceWrap, List.cons_append, List.cons.injEq] at huv
    have h2 : natChars i ++ '}' :: v = g ++ '}' :: [] := by
      rw [← huv.2]
      simp
    exact hne (brace_mid_eq (natChars i) (natChars_no_close i) hcl h2).1.symm
  | cons u0 u' =>
    simp only [braceWrap, List.cons_append, List.cons.injEq] at huv
    have hmem : '{' ∈ g ++ ['}'] := by
      rw [← huv.2]
      simp [braceWrap]
    rcases List.mem_append.1 hmem with hm | hm
    · exact hop hm
    · simp at hm

theorem ph_not_span_group {i : Nat} {g : Str} (hop : '{' ∉ g) (hcl : '}' ∉ g) :
    ∀ a2 b1 : Str, a2 <:+ braceWrap g → a2 ≠ [] → b1 ≠ [] →
      a2 ++ b1 ≠ braceWrap (natChars i) := by
  intro a2 b1 hsuf hne2 hne1 heq
  obtain ⟨u, hu⟩ := hsuf
  cases a2 with
  | nil => exact hne2 rfl
  | cons a0 a2' =>
    have ha0 : a0 = '{' := by
      simpa [braceWrap] using congrArg List.head? heq
    subst ha0
    cases u with
    | nil =>
      rw [List.nil_append] at hu
      have h2 : a2' = g ++ ['}'] := by simpa [braceWrap] using hu
      subst h2
      have h3 : g ++ '}' :: b1 = natChars i ++ '}' :: [] := by
        have := heq
        simp only [braceWrap, List.cons_append, List.cons.injEq] at this
        rw [← this.2]
        simp
      exact hne1 (brace_mid_eq g hcl (natChars_no_close i) h3).2
    | cons u0 u' =>
      have hmem : '{' ∈ g ++ ['}'] := by
        have h2 : u' ++ '{' :: a2' = g ++ ['}'] := by
          have h' := hu
          simp only [braceWrap, List.cons_append, List.cons.injEq] at h'
          exact h'.2
        rw [← h2]
        simp
      rcases List.mem_append.1 hmem with hm | hm
      · exact hop hm
      · simp at hm

theorem ph_not_infix_render {i : Nat} {a : PathAtom} (hwf : a.WF) (hne : a ≠ .idx i) :
    ¬ braceWrap (natChars i) <:+: a.render := by
  cases a with
  | seg s =>
    intro h
    have hm : '{' ∈ s := h.subset (by simp [braceWrap])
    exact absurd rfl (hwf _ hm).1
  | idx j =>
    have hj : j ≠ i := by rintro rfl; exact hne rfl
    exact ph_not_in_braceGroup (natChars_no_open j) (natChars_no_close j)
      (fun h => hj (natChars_inj h))
  | tok g =>
    obtain ⟨hbf, c, hc, hcd⟩ := hwf
    refine ph_not_in_braceGroup (fun h => absurd rfl (hbf _ h).1)
      (fun h => absurd rfl (hbf _ h).2) ?_
    rintro rfl
    exact hcd (natChars_digits i c hc)

theorem ph_not_span_render {i : Nat} {a : PathAtom} (hwf : a.WF) :
    ∀ a2 b1 : Str, a2 <:+ a.render → a2 ≠ [] → b1 ≠ [] →
      a2 ++ b1 ≠ braceWrap (natChars i) := by
  cases a with
  | seg s =>
    intro a2 b1 hsuf hne2 hne1 heq
    cases a2 with
    | nil => exact hne2 rfl
    | cons a0 a2' =>
      have ha0 : a0 = '{' := by
        simpa [braceWrap] using congrArg List.head? heq
      subst ha0
      have hm : '{' ∈ s := hsuf.subset (List.mem_cons_self _ _)
      exact absurd rfl (hwf _ hm).1
  | idx j => exact ph_not_span_group (natChars_no_open j) (natChars_no_close j)
  | tok g =>
    obtain ⟨hbf, -⟩ := hwf
    exact ph_not_span_group (fun h => absurd rfl (hbf _ h).1)
      (fun h => absurd rfl (hbf _ h).2)

theorem ph_not_infix_flat {i : Nat} : ∀ {ats : List PathAtom}, (∀ a ∈ ats, a.WF) →
    PathAtom.idx i ∉ ats → ¬ braceWrap (natChars i) <:+: renderAtoms ats := by
  intro ats
  induction ats with
  | nil =>
    intro _ _ h
    rw [renderAtoms_nil] at h
    exact braceWrap_ne_nil (natChars i) (by simpa using h)
  | cons a ats ih =>
    intro hwf hni h
    rw [renderAtoms_cons] at h
    rcases infix_split h with h1 | h1 | ⟨a2, b1, hn2, hn1, hsuf, hpre, heq⟩
    · exact ph_not_infix_render (hwf a (by simp)) (fun he => hni (by rw [← he]; simp)) h1
    · exact ih (fun x hx => hwf x (by simp [hx])) (fun hx => hni (by simp [hx])) h1
    · exact ph_not_span_render (hwf a (by simp)) a2 b1 hsuf hn2 hn1 heq.symm

/-! The replace fold of `pretty_path`, computed on the atom decomposition. -/

theorem substAtom_eq_of_ne {i : Nat} {name : Str} {a : PathAtom} (h : a ≠ .idx i) :
    substAtom i name a = a := by
  cases a with
  | idx j =>
    have hj : j ≠ i := by rintro rfl; exact h rfl
    simp [substAtom, hj]
  | seg s => rfl
  | tok g => rfl

theorem substAtom_WF {i : Nat} {name : Str} {a : PathAtom} (ha : a.WF) (hn : goodName name) :
    (substAtom i name a).WF := by
  cases a with
  | idx j =>
    by_cases hj : j = i
    · simp [substAtom, hj, PathAtom.WF, hn]
    · simp [substAtom, hj, PathAtom.WF]
  | seg s => exact ha
  | tok g => exact ha

theorem replace_render {i : Nat} {name : Str} : ∀ {ats : List PathAtom},
    (∀ a ∈ ats, a.WF) →
    listReplace (braceWrap (natChars i)) (braceWrap name) (renderAtoms ats)
      = renderAtoms (ats.map (substAtom i name)) := by
  intro ats
  induction ats with
  | nil => intro _; rw [renderAtoms_nil, listReplace_nil, List.map_nil, renderAtoms_nil]
  | cons a ats ih =>
    intro hwf
    rw [renderAtoms_cons]
    by_cases ha : a = PathAtom.idx i
    · subst ha
      rw [show (PathAtom.idx i).render = braceWrap (natChars i) from rfl,
        listReplace_head _ _ _ (braceWrap_ne_nil _), ih (fun x hx => hwf x (by simp [hx])),
        List.map_cons, renderAtoms_cons]
      simp [substAtom, PathAtom.render]
    · rw [listReplace_append _ (a.render) (renderAtoms ats) ?occ,
        ih (fun x hx => hwf x (by simp [hx])), List.map_cons, renderAtoms_cons,
        substAtom_eq_of_ne ha]
      case occ =>
        intro h
        rcases infix_split h with h1 | h1 | ⟨a2, b1, hn2, hn1, hsuf, hpre, heq⟩
        · exact ph_not_infix_render (hwf a (by simp)) ha h1
        · have hlen := h1.length_le
          rw [braceWrap_length] at hlen
          have := List.length_take_le ((braceWrap (natChars i)).length - 1)
            (renderAtoms ats)
          rw [braceWrap_length] at this
          omega
        · exact ph_not_span_render (hwf a (by simp)) a2 b1 hsuf hn2 hn1 heq.symm

theorem foldl_replace : ∀ (ps : List (Nat × Str)) (ats : List PathAtom),
    (∀ a ∈ ats, a.WF) → (∀ p ∈ ps, goodName p.2) →
    ps.foldl (fun path p => listReplace (braceWrap (natChars p.1)) (braceWrap p.2) path)
        (renderAtoms ats)
      = renderAtoms (ps.foldl (fun l p => l.map (substAtom p.1 p.2)) ats) := by
  intro ps
  induction ps with
  | nil => intro ats _ _; rfl
  | cons p ps ih =>
    intro ats hwf hns
    rw [List.foldl_cons, List.foldl_cons, replace_render hwf]
    exact ih _
      (fun a ha => by
        obtain ⟨b, hb, rfl⟩ := List.mem_map.1 ha
        exact substAtom_WF (hwf b hb) (hns p (by simp)))
      (fun q hq => hns q (by simp [hq]))

theorem substFrom_nil (k : Nat) (a : PathAtom) : substFrom k [] a = a := by
  cases a with
  | idx j =>
    simp only [substFrom, List.length_nil]
    rw [if_neg (by omega)]
  | seg s => rfl
  | tok g => rfl

theorem substFrom_cons (k : Nat) (name : Str) (names : List Str) (a : PathAtom) :
    substFrom (k + 1) names (substAtom k name a) = substFrom k (name :: names) a := by
  cases a with
  | seg s => rfl
  | tok g => rfl
  | idx j =>
    by_cases hj : j = k
    · have h1 : substAtom k name (PathAtom.idx j) = PathAtom.tok name := by
        simp [substAtom, hj]
      have h2 : substFrom k (name :: names) (PathAtom.idx j) = PathAtom.tok name := by
        simp only [substFrom, List.length_cons]
        rw [if_pos (by omega), hj]
        simp
      rw [h1, h2]
      rfl
    · simp only [substAtom, if_neg hj, substFrom, List.length_cons]
      by_cases h1 : k + 1 ≤ j ∧ j < k + 1 + names.length
      · rw [if_pos h1, if_pos (by omega)]
        have hjk : j - k = (j - (k + 1)) + 1 := by omega
        rw [hjk, List.getD_cons_succ]
      · rw [if_neg h1, if_neg (by omega)]

theorem foldl_subst_enumFrom : ∀ (names : List Str) (k : Nat) (ats : List PathAtom),
    (names.enumFrom k).foldl (fun l p => l.map (substAtom p.1 p.2)) ats
      = ats.map (substFrom k names) := by
  intro names
  induction names with
  | nil =>
    intro k ats
    simp only [List.enumFrom, List.foldl_nil]
    exact ((List.map_congr_left (fun a _ => substFrom_nil k a)).trans (List.map_id ats)).symm
  | cons name names ih =>
    intro k ats
    rw [List.enumFrom_cons, List.foldl_cons, ih (k + 1), List.map_map]
    exact List.map_congr_left (fun a _ => substFrom_cons k name names a)

theorem enumFrom_map_pair {α β : Type} (f : α → β) :
    ∀ (l : List α) (k : Nat),
      (l.map f).enumFrom k = (l.enumFrom k).map fun p => (p.1, f p.2) := by
  intro l
  induction l with
  | nil => intro k; rfl
  | cons a l ih =>
    intro k
    simp only [List.map_cons, List.enumFrom_cons, ih (k + 1)]

theorem idx_mem_atomsIdx {j : Nat} {ats : List PathAtom} (h : PathAtom.idx j ∈ ats) :
    j ∈ atomsIdx ats := by
  unfold atomsIdx
  exact List.mem_filterMap.2 ⟨PathAtom.idx j, h, rfl⟩

/-- Characterizes `pretty_path` on a record whose path decomposes into
well-formed atoms and whose parameter names cannot collide with placeholder
syntax: the sequential replace fold computes the simultaneous substitution. -/
theorem pretty_path_eq (r : RouteDocumentation) (ats : List PathAtom)
    (hp : r.path = renderAtoms ats) (hwf : ∀ a ∈ ats, a.WF)
    (hns : ∀ p ∈ r.parameters, goodName p.name) :
    r.pretty_path
      = renderAtoms (ats.map (substFrom 0 (r.parameters.map DocumentedParameter.name))) := by
  unfold RouteDocumentation.pretty_path
  rw [hp]
  have h1 : r.parameters.enum.foldl
        (fun path ip => listReplace (braceWrap (natChars ip.1)) (braceWrap ip.2.name) path)
        (renderAtoms ats)
      = (r.parameters.enum.map fun ip => (ip.1, ip.2.name)).foldl
        (fun path p => listReplace (braceWrap (natChars p.1)) (braceWrap p.2) path)
        (renderAtoms ats) := by
    rw [List.foldl_map]
  have h2 : r.parameters.enum.map (fun ip => (ip.1, ip.2.name))
      = (r.parameters.map DocumentedParameter.name).enumFrom 0 := by
    rw [enumFrom_map_pair]
    rfl
  rw [h1, h2, foldl_replace _ _ hwf ?names, foldl_subst_enumFrom]
  case names =>
    intro q hq
    rw [← h2] at hq
    obtain ⟨ip, hip, rfl⟩ := List.mem_map.1 hq
    exact hns ip.2 (List.get?_mem (List.mem_enum_iff_get?.mp hip))

theorem goodName_getD : ∀ (names : List Str) (j : Nat), j < names.length →
    (∀ s ∈ names, goodName s) → goodName (names.getD j []) := by
  intro names
  induction names with
  | nil => intro j hj _; exact absurd hj (by simp)
  | cons s names ih =>
    intro j hj h
    cases j with
    | zero => rw [List.getD_cons_zero]; exact h s (by simp)
    | succ j =>
      rw [List.getD_cons_succ]
      exact ih j (by simpa using hj) (fun x hx => h x (by simp [hx]))

theorem substFrom_WF {names : List Str} (hn : ∀ s ∈ names, goodName s) {a : PathAtom}
    (ha : a.WF) (hin : ∀ j, a = .idx j → j < names.length) :
    (substFrom 0 names a).WF := by
  cases a with
  | seg s => exact ha
  | tok g => exact ha
  | idx j =>
    have hj : j < names.length := hin j rfl
    simp only [substFrom]
    rw [if_pos (by omega)]
    show goodName (names.getD (j - 0) [])
    rw [Nat.sub_zero]
    exact goodName_getD names j hj hn

theorem subst_atoms_fixed {names : List Str} {ats : List PathAtom}
    (hin : ∀ j ∈ atomsIdx ats, j < names.length) :
    (ats.map (substFrom 0 names)).map (substFrom 0 names) = ats.map (substFrom 0 names) := by
  rw [List.map_map]
  apply List.map_congr_left
  intro a ha
  show substFrom 0 names (substFrom 0 names a) = substFrom 0 names a
  cases a with
  | seg s => rfl
  | tok g => rfl
  | idx j =>
    have hj : j < names.length := hin j (idx_mem_atomsIdx ha)
    simp only [substFrom]
    rw [if_pos (by omega)]

/-- C5 (amended).  For every record whose stored path decomposes into
well-formed atoms (brace-free segments interleaved with the placeholders
`{0}` ... `{n-1}`, which is what the placeholder-count invariant guarantees
for mutator-built records) and whose parameter names contain no braces and at
least one non-digit character, `pretty_path` returns the template with each
placeholder `{i}` replaced by the name of the i-th parameter (the simultaneous
substitution `substFrom 0`), and the derivation is idempotent: substituting
names into the already-substituted path changes nothing.  The record itself is
never mutated: `pretty_path` takes the record by shared reference and the
embedding is a pure function of it. -/
theorem C5_pretty_path_substitution (r : RouteDocumentation) (ats : List PathAtom)
    (hp : r.path = renderAtoms ats) (hwf : ∀ a ∈ ats, a.WF)
    (hidx : atomsIdx ats = List.range r.parameters.length)
    (hns : ∀ p ∈ r.parameters, goodName p.name) :
    r.pretty_path
      = renderAtoms (ats.map (substFrom 0 (r.parameters.map DocumentedParameter.name)))
    ∧ ({r with path := r.pretty_path} : RouteDocumentation).pretty_path = r.pretty_path := by
  have hin : ∀ j ∈ atomsIdx ats, j < (r.parameters.map DocumentedParameter.name).length := by
    intro j hj
    rw [hidx] at hj
    simpa using List.mem_range.1 hj
  have hnames : ∀ s ∈ r.parameters.map DocumentedParameter.name, goodName s := by
    intro s hs
    obtain ⟨p, hp', rfl⟩ := List.mem_map.1 hs
    exact hns p hp'
  have h1 := pretty_path_eq r ats hp hwf hns
  refine ⟨h1, ?_⟩
  have hwf2 : ∀ a ∈ ats.map (substFrom 0 (r.parameters.map DocumentedParameter.name)),
      a.WF := by
    intro a ha
    obtain ⟨b, hb, rfl⟩ := List.mem_map.1 ha
    exact substFrom_WF hnames (hwf b hb) (fun j hbj => hin j (idx_mem_atomsIdx (hbj ▸ hb)))
  have hin2 : ∀ j ∈ atomsIdx (ats.map (substFrom 0 (r.parameters.map
      DocumentedParameter.name))), j < (r.parameters.map DocumentedParameter.name).length := by
    intro j hj
    exfalso
    obtain ⟨a, ha, hm⟩ := List.mem_filterMap.1 hj
    obtain ⟨b, hb, rfl⟩ := List.mem_map.1 ha
    cases b with
    | seg s => simp [substFrom] at hm
    | tok g => simp [substFrom] at hm
    | idx j' =>
      have hj' : j' < (r.parameters.map DocumentedParameter.name).length :=
        hin j' (idx_mem_atomsIdx hb)
      simp only [substFrom] at hm
      rw [if_pos (by omega)] at hm
      simp at hm
  have h2 := pretty_path_eq
    ({r with path := r.pretty_path})
    (ats.map (substFrom 0 (r.parameters.map DocumentedParameter.name)))
    (by rw [h1]) hwf2 hns
  rw [h2]
  show renderAtoms ((ats.map (substFrom 0 (r.parameters.map DocumentedParameter.name))).map
    (substFrom 0 (r.parameters.map DocumentedParameter.name))) = r.pretty_path
  rw [subst_atoms_fixed hin, ← h1]

/-- C5 counterexample.  The record built by declaring parameters named "1"
and then "z" satisfies the placeholder-count invariant (two placeholders, two
parameters), yet `pretty_path` yields "/{z}/{z}": the placeholder `{0}` does
not end up replaced by the name of parameter 0 (which would give "/{1}/{z}"),
because the sequential replace cascades through the numeric name.  A
parameter whose name contains `{0}` likewise breaks idempotence of the
derivation. -/
theorem C5_counterexample :
    (placeholders wC5bad.path).length = wC5bad.parameters.length
    ∧ wC5bad.parameters.map DocumentedParameter.name = [chars "1", chars "z"]
    ∧ wC5bad.pretty_path = chars "/{z}/{z}"
    ∧ wC5bad.pretty_path ≠ chars "/{1}/{z}"
    ∧ ({wC5bad2 with path := wC5bad2.pretty_path} : RouteDocumentation).pretty_path
        ≠ wC5bad2.pretty_path := by
  have hn0 : braceWrap (natChars 0) = ['{', '0', '}'] := by
    simp [braceWrap, natChars, natCharsAux, Nat.digitChar]
  have hn1 : braceWrap (natChars 1) = ['{', '1', '}'] := by
    simp [braceWrap, natChars, natCharsAux, Nat.digitChar]
  have e0 : wC5bad.path = chars "/{0}/{1}" := by
    simp [wC5bad, RouteDocumentation.parameter, RouteDocumentation.push_path,
      RouteDocumentation.default, chars, hn0, hn1]
  have epar : wC5bad.parameters
      = [document.parameter (chars "1") document.integer,
         document.parameter (chars "z") document.integer] := by
    simp [wC5bad, RouteDocumentation.parameter, RouteDocumentation.push_path,
      RouteDocumentation.default]
  have e1 : wC5bad.pretty_path = chars "/{z}/{z}" := by
    unfold RouteDocumentation.pretty_path
    rw [epar, e0]
    simp only [List.enum, List.enumFrom, List.foldl_cons, List.foldl_nil, hn0, hn1,
      document.parameter]
    simp only [chars, braceWrap]
    simp [listReplace.eq_def, startsWith]
  have epar2 : wC5bad2.parameters
      = [document.parameter (chars "a{0}b") document.integer] := by
    simp [wC5bad2, RouteDocumentation.parameter, RouteDocumentation.push_path,
      RouteDocumentation.default]
  have e02 : wC5bad2.path = ['/', '{', '0', '}'] := by
    simp [wC5bad2, RouteDocumentation.parameter, RouteDocumentation.push_path,
      RouteDocumentation.default, chars, hn0]
  have e2 : wC5bad2.pretty_path = ['/', '{', 'a', '{', '0', '}', 'b', '}'] := by
    unfold RouteDocumentation.pretty_path
    rw [epar2, e02]
    simp only [List.enum, List.enumFrom, List.foldl_cons, List.foldl_nil, hn0,
      document.parameter]
    simp only [chars, braceWrap]
    simp [listReplace.eq_def, startsWith]
  have e3 : ({wC5bad2 with path := wC5bad2.pretty_path} : RouteDocumentation).pretty_path
      = ['/', '{', 'a', '{', 'a', '{', '0', '}', 'b', '}', 'b', '}'] := by
    unfold RouteDocumentation.pretty_path
    show List.foldl
        (fun path ip => listReplace (braceWrap (natChars ip.1)) (braceWrap ip.2.name) path)
        wC5bad2.pretty_path wC5bad2.parameters.enum
      = ['/', '{', 'a', '{', 'a', '{', '0', '}', 'b', '}', 'b', '}']
    rw [epar2, e2]
    simp only [List.enum, List.enumFrom, List.foldl_cons, List.foldl_nil, hn0,
      document.parameter]
    simp only [chars, braceWrap]
    simp [listReplace.eq_def, startsWith]
  refine ⟨?_, ?_, e1, ?_, ?_⟩
  · rw [e0, epar]
    simp [placeholders.eq_def, chars]
  · rw [epar]
    simp [document.parameter]
  · rw [e1]; decide
  · rw [e3, e2]; decide

/-- C5 witness: the record with a single parameter named "id" satisfies the
amended hypotheses, and its pretty path is the simultaneous substitution. -/
theorem C5_witness :
    (wC5r.path = renderAtoms wC5atoms ∧ (∀ a ∈ wC5atoms, a.WF)
      ∧ atomsIdx wC5atoms = List.range wC5r.parameters.length
      ∧ (∀ p ∈ wC5r.parameters, goodName p.name))
    ∧ wC5r.pretty_path
        = renderAtoms (wC5atoms.map (substFrom 0 (wC5r.parameters.map
            DocumentedParameter.name)))
    ∧ ({wC5r with path := wC5r.pretty_path} : RouteDocumentation).pretty_path
        = wC5r.pretty_path := by
  have hn0 : braceWrap (natChars 0) = ['{', '0', '}'] := by
    simp [braceWrap, natChars, natCharsAux, Nat.digitChar]
  have hp : wC5r.path = renderAtoms wC5atoms := by
    simp [wC5r, RouteDocumentation.parameter, RouteDocumentation.push_path,
      RouteDocumentation.default, chars, hn0, renderAtoms, wC5atoms, PathAtom.render,
      braceWrap, natChars, natCharsAux, Nat.digitChar]
  have hwf : ∀ a ∈ wC5atoms, a.WF := by decide
  have hidx : atomsIdx wC5atoms = List.range wC5r.parameters.length := by
    have epar : wC5r.parameters
        = [document.parameter (chars "id") document.integer] := by
      simp [wC5r, RouteDocumentation.parameter, RouteDocumentation.push_path,
        RouteDocumentation.default]
    rw [epar]
    decide
  have hns : ∀ p ∈ wC5r.parameters, goodName p.name := by
    have epar : wC5r.parameters
        = [document.parameter (chars "id") document.integer] := by
      simp [wC5r, RouteDocumentation.parameter, RouteDocumentation.push_path,
        RouteDocumentation.default]
    rw [epar]
    decide
  exact ⟨⟨hp, hwf, hidx, hns⟩,
    (C5_pretty_path_substitution wC5r wC5atoms hp hwf hidx hns).1,
    (C5_pretty_path_substitution wC5r wC5atoms hp hwf hidx hns).2⟩

/-! The placeholder scanner on rendered atom lists. -/

theorem placeholders_nil : placeholders [] = [] := by
  simp [placeholders]

theorem placeholders_cons_not {c : Char} (t : Str) (h : c ≠ '{') :
    placeholders (c :: t) = placeholders t := by
  rw [placeholders.eq_def]
  simp [h]

theorem placeholders_seg : ∀ (s : Str), braceFree s → ∀ t, placeholders (s ++ t) = placeholders t := by
  intro s
  induction s with
  | nil => intro _ t; rfl
  | cons c s' ih =>
    intro hs t
    rw [List.cons_append, placeholders_cons_not _ (hs c (by simp)).1]
    exact ih (fun x hx => hs x (by simp [hx])) t

theorem takeWhile_append_cons (q : Char → Bool) : ∀ (g : Str), (∀ c ∈ g, q c = true) →
    ∀ (c : Char) (t : Str), q c = false →
    (g ++ c :: t).takeWhile q = g ∧ (g ++ c :: t).dropWhile q = c :: t := by
  intro g
  induction g with
  | nil =>
    intro _ c t hc
    simp [List.takeWhile_cons, List.dropWhile_cons, hc]
  | cons g0 g' ih =>
    intro hg c t hc
    have h0 : q g0 = true := hg g0 (by simp)
    have := ih (fun x hx => hg x (by simp [hx])) c t hc
    simp [List.takeWhile_cons, List.dropWhile_cons, h0, this.1, this.2]

theorem placeholders_group (g : Str) (hcl : '}' ∉ g) (t : Str) :
    placeholders (braceWrap g ++ t) = g :: placeholders t := by
  have h1 : braceWrap g ++ t = '{' :: (g ++ '}' :: t) := by simp [braceWrap]
  rw [h1, placeholders.eq_def]
  have hq : ∀ c ∈ g, (fun d => !decide (d = '}')) c = true := by
    intro c hc
    simp
    rintro rfl
    exact hcl hc
  have := takeWhile_append_cons (fun d => !decide (d = '}')) g hq '}' t (by simp)
  simp [this.1, this.2]

theorem atomsIdx_append (xs ys : List PathAtom) :
    atomsIdx (xs ++ ys) = atomsIdx xs ++ atomsIdx ys := by
  unfold atomsIdx
  rw [List.filterMap_append]

theorem renderAtoms_singleton (a : PathAtom) : renderAtoms [a] = a.render := by
  simp [renderAtoms]

theorem placeholders_renderAtoms : ∀ (ats : List PathAtom),
    (∀ a ∈ ats, a.WF ∧ ∀ g, a ≠ .tok g) →
    placeholders (renderAtoms ats) = (atomsIdx ats).map natChars := by
  intro ats
  induction ats with
  | nil => intro _; rw [renderAtoms_nil, placeholders_nil]; rfl
  | cons a ats ih =>
    intro h
    rw [renderAtoms_cons]
    cases a with
    | seg s =>
      have hseg : braceFree s := (h (PathAtom.seg s) (by simp)).1
      rw [show (PathAtom.seg s).render = s from rfl, placeholders_seg s hseg,
        ih (fun x hx => h x (by simp [hx]))]
      rfl
    | idx j =>
      rw [show (PathAtom.idx j).render = braceWrap (natChars j) from rfl,
        placeholders_group _ (natChars_no_close j), ih (fun x hx => h x (by simp [hx]))]
      rfl
    | tok g => exact absurd rfl ((h _ (by simp)).2 g)

/-! The reachability invariant for records built by mutator sequences. -/

theorem applyOp_atoms {r : RouteDocumentation} {op : RouteOp}
    (h : ∃ ats, (∀ a ∈ ats, a.WF ∧ ∀ g, a ≠ .tok g)
      ∧ atomsIdx ats = List.range r.parameters.length ∧ r.path = renderAtoms ats)
    (hop : op.SafePath) :
    ∃ ats, (∀ a ∈ ats, a.WF ∧ ∀ g, a ≠ .tok g)
      ∧ atomsIdx ats = List.range (applyOp r op).parameters.length
      ∧ (applyOp r op).path = renderAtoms ats := by
  obtain ⟨ats, hwf, hidx, hpath⟩ := h
  cases op with
  | body b => exact ⟨ats, hwf, hidx, hpath⟩
  | cookie c => exact ⟨ats, hwf, hidx, hpath⟩
  | description d => exact ⟨ats, hwf, hidx, hpath⟩
  | header hh => exact ⟨ats, hwf, hidx, hpath⟩
  | query q => exact ⟨ats, hwf, hidx, hpath⟩
  | response resp => exact ⟨ats, hwf, hidx, hpath⟩
  | tag t => exact ⟨ats, hwf, hidx, hpath⟩
  | push_path s =>
    have hbf : braceFree s := hop
    by_cases hc : r.path.getLast? = some '/'
    · refine ⟨ats ++ [.seg s], ?_, ?_, ?_⟩
      · intro a ha
        rcases List.mem_append.1 ha with ha | ha
        · exact hwf a ha
        · simp at ha
          subst ha
          exact ⟨hbf, by simp⟩
      · rw [atomsIdx_append]
        simpa [atomsIdx] using hidx
      · show (if r.path.getLast? = some '/' then r.path else r.path ++ ['/']) ++ s
          = renderAtoms (ats ++ [PathAtom.seg s])
        rw [if_pos hc, renderAtoms_append, renderAtoms_singleton, hpath]
        rfl
    · refine ⟨ats ++ [.seg ('/' :: s)], ?_, ?_, ?_⟩
      · intro a ha
        rcases List.mem_append.1 ha with ha | ha
        · exact hwf a ha
        · simp at ha
          subst ha
          constructor
          · intro c hcm
            rcases List.mem_cons.1 hcm with rfl | hcm
            · exact ⟨by decide, by decide⟩
            · exact hbf c hcm
          · simp
      · rw [atomsIdx_append]
        simpa [atomsIdx] using hidx
      · show (if r.path.getLast? = some '/' then r.path else r.path ++ ['/']) ++ s
          = renderAtoms (ats ++ [PathAtom.seg ('/' :: s)])
        rw [if_neg hc, renderAtoms_append, renderAtoms_singleton, hpath, List.append_assoc]
        rfl
  | parameter p =>
    by_cases hc : r.path.getLast? = some '/'
    · refine ⟨ats ++ [.idx r.parameters.length], ?_, ?_, ?_⟩
      · intro a ha
        rcases List.mem_append.1 ha with ha | ha
        · exact hwf a ha
        · simp at ha
          subst ha
          exact ⟨trivial, by simp⟩
      · rw [atomsIdx_append]
        show atomsIdx ats ++ [r.parameters.length]
          = List.range (r.parameters ++ [p]).length
        rw [hidx, List.length_append, List.length_cons, List.length_nil, List.range_succ]
      · show (if r.path.getLast? = some '/' then r.path else r.path ++ ['/'])
            ++ braceWrap (natChars r.parameters.length)
          = renderAtoms (ats ++ [PathAtom.idx r.parameters.length])
        rw [if_pos hc, renderAtoms_append, renderAtoms_singleton, hpath]
        rfl
    · refine ⟨ats ++ [.seg ['/'], .idx r.parameters.length], ?_, ?_, ?_⟩
      · intro a ha
        rcases List.mem_append.1 ha with ha | ha
        · exact hwf a ha
        · rcases List.mem_cons.1 ha with rfl | ha
          · exact ⟨by decide, by simp⟩
          · simp at ha
            subst ha
            exact ⟨trivial, by simp⟩
      · rw [atomsIdx_append]
        show atomsIdx ats ++ atomsIdx [PathAtom.seg ['/'], PathAtom.idx r.parameters.length]
          = List.range (r.parameters ++ [p]).length
        rw [hidx, List.length_append, List.length_cons, List.length_nil]
        rw [show atomsIdx [PathAtom.seg ['/'], PathAtom.idx r.parameters.length]
            = [r.parameters.length] from rfl, List.range_succ]
      · show (if r.path.getLast? = some '/' then r.path else r.path ++ ['/'])
            ++ braceWrap (natChars r.parameters.length)
          = renderAtoms (ats ++ [PathAtom.seg ['/'], PathAtom.idx r.parameters.length])
        rw [if_neg hc, renderAtoms_append, hpath, List.append_assoc]
        simp [renderAtoms, PathAtom.render]

theorem foldl_applyOp_atoms : ∀ (ops : List RouteOp) (r : RouteDocumentation),
    (∀ op ∈ ops, op.SafePath) →
    (∃ ats, (∀ a ∈ ats, a.WF ∧ ∀ g, a ≠ .tok g)
      ∧ atomsIdx ats = List.range r.parameters.length ∧ r.path = renderAtoms ats) →
    ∃ ats, (∀ a ∈ ats, a.WF ∧ ∀ g, a ≠ .tok g)
      ∧ atomsIdx ats = List.range (ops.foldl applyOp r).parameters.length
      ∧ (ops.foldl applyOp r).path = renderAtoms ats := by
  intro ops
  induction ops with
  | nil => intro r _ h; exact h
  | cons op ops ih =>
    intro r hsafe h
    exact ih (applyOp r op) (fun x hx => hsafe x (by simp [hx]))
      (applyOp_atoms h (hsafe op (by simp)))

/-- C2 (amended).  Every `parameter` call atomically appends exactly one
placeholder `{i}` (with `i` the current parameter count) to the path and one
descriptor to `parameters`, so for every record built from the default record
by any sequence of mutator calls in which `push_path` arguments are brace-free
(placeholder syntax can only enter the path through `parameter`), the
placeholders present in the path are exactly `{0}, ..., {n-1}` in insertion
order, where `n = parameters.len()`; in particular their count equals
`parameters.len()`. -/
theorem C2_parameter_placeholder_invariant (ops : List RouteOp)
    (h : ∀ op ∈ ops, op.SafePath) :
    placeholders (buildRoute ops).path
      = (List.range (buildRoute ops).parameters.length).map natChars
    ∧ (placeholders (buildRoute ops).path).length = (buildRoute ops).parameters.length := by
  have base : ∃ ats, (∀ a ∈ ats, a.WF ∧ ∀ g, a ≠ .tok g)
      ∧ atomsIdx ats = List.range RouteDocumentation.default.parameters.length
      ∧ RouteDocumentation.default.path = renderAtoms ats := by
    refine ⟨[.seg (chars "/")], ?_, by decide, by simp [renderAtoms, PathAtom.render,
      RouteDocumentation.default]⟩
    intro a ha
    simp at ha
    subst ha
    exact ⟨by decide, by simp⟩
  obtain ⟨ats, hwf, hidx, hpath⟩ := foldl_applyOp_atoms ops RouteDocumentation.default h base
  have h1 : placeholders (buildRoute ops).path
      = (List.range (buildRoute ops).parameters.length).map natChars := by
    unfold buildRoute
    rw [hpath, placeholders_renderAtoms ats hwf, hidx]
  exact ⟨h1, by rw [h1]; simp⟩

/-- C2 counterexample.  `push_path` is itself one of the record's mutator
operations, and `push_path("{0}")` adds a positional placeholder to the path
without appending any parameter descriptor, so for the record built by that
single call the number of placeholders in the path (one) differs from
`parameters.len()` (zero), refuting the claim over arbitrary mutator
sequences. -/
theorem C2_counterexample :
    placeholders (buildRoute [.push_path (chars "{0}")]).path = [chars "0"]
    ∧ (buildRoute [.push_path (chars "{0}")]).parameters = []
    ∧ (placeholders (buildRoute [.push_path (chars "{0}")]).path).length
        ≠ (buildRoute [.push_path (chars "{0}")]).parameters.length := by
  have e : (buildRoute [.push_path (chars "{0}")]).path = chars "/{0}" := by
    simp [buildRoute, applyOp, RouteDocumentation.push_path, RouteDocumentation.default,
      chars]
  have ep : (buildRoute [.push_path (chars "{0}")]).parameters = [] := by
    simp [buildRoute, applyOp, RouteDocumentation.push_path, RouteDocumentation.default]
  have e2 : placeholders (chars "/{0}") = [chars "0"] := by
    simp [placeholders.eq_def, chars]
  rw [e, ep, e2]
  simp [chars]

/-- C2 witness: a parameter declaration followed by a brace-free path
segment; the placeholder list is exactly `[natChars 0]` and the counts agree. -/
theorem C2_witness :
    (∀ op ∈ wC2ops, op.SafePath)
    ∧ placeholders (buildRoute wC2ops).path
        = (List.range (buildRoute wC2ops).parameters.length).map natChars
    ∧ (placeholders (buildRoute wC2ops).path).length
        = (buildRoute wC2ops).parameters.length := by
  have hs : ∀ op ∈ wC2ops, op.SafePath := by decide
  exact ⟨hs, (C2_parameter_placeholder_invariant wC2ops hs).1,
    (C2_parameter_placeholder_invariant wC2ops hs).2⟩

/-! The path prefix invariant. -/

theorem applyOp_path_head {r : RouteDocumentation} (h1 : r.path ≠ [])
    (h2 : r.path.head? = some '/') (op : RouteOp) :
    (applyOp r op).path ≠ [] ∧ (applyOp r op).path.head? = some '/' := by
  have happ : ∀ s : Str,
      ((if r.path.getLast? = some '/' then r.path else r.path ++ ['/']) ++ s) ≠ []
      ∧ ((if r.path.getLast? = some '/' then r.path else r.path ++ ['/']) ++ s).head?
          = some '/' := by
    intro s
    cases hr : r.path with
    | nil => exact absurd hr h1
    | cons c t =>
      have hc : c = '/' := by
        rw [hr] at h2
        simpa using h2
      subst hc
      split <;> simp
  cases op with
  | push_path s => exact happ s
  | parameter p => exact happ (braceWrap (natChars r.parameters.length))
  | body b => exact ⟨h1, h2⟩
  | cookie c => exact ⟨h1, h2⟩
  | description d => exact ⟨h1, h2⟩
  | header hh => exact ⟨h1, h2⟩
  | query q => exact ⟨h1, h2⟩
  | response resp => exact ⟨h1, h2⟩
  | tag t => exact ⟨h1, h2⟩

/-- C10.  The default record's path is the one-character string "/" (not the
empty string); `push_path` inserts a `'/'` separator before the appended
segment exactly when the current path does not already end with `'/'`; and
every record reachable from the default record by any sequence of mutator
calls has a non-empty path beginning with `'/'`. -/
theorem C10_path_invariant :
    RouteDocumentation.default.path = chars "/"
    ∧ (∀ (r : RouteDocumentation) (s : Str),
        (r.push_path s).path
          = if r.path.getLast? = some '/' then r.path ++ s else r.path ++ '/' :: s)
    ∧ ∀ ops : List RouteOp,
        (buildRoute ops).path ≠ [] ∧ (buildRoute ops).path.head? = some '/' := by
  refine ⟨rfl, ?_, ?_⟩
  · intro r s
    show (if r.path.getLast? = some '/' then r.path else r.path ++ ['/']) ++ s = _
    by_cases hc : r.path.getLast? = some '/'
    · rw [if_pos hc, if_pos hc]
    · rw [if_neg hc, if_neg hc, List.append_assoc]
      rfl
  · have key : ∀ (ops : List RouteOp) (r : RouteDocumentation), r.path ≠ [] →
        r.path.head? = some '/' →
        (ops.foldl applyOp r).path ≠ [] ∧ (ops.foldl applyOp r).path.head? = some '/' := by
      intro ops
      induction ops with
      | nil => intro r hh1 hh2; exact ⟨hh1, hh2⟩
      | cons op ops ih =>
        intro r hh1 hh2
        obtain ⟨g1, g2⟩ := applyOp_path_head hh1 hh2 op
        exact ih (applyOp r op) g1 g2
    intro ops
    exact key ops RouteDocumentation.default (by decide) (by decide)

/-! First-wins insertion for the keyed collections. -/

theorem hsetInsert_second_noop {α : Type} (eqv : α → α → Bool) (s : List α) (a a' : α)
    (hEq : eqv a a' = true) (htr : ∀ b, eqv b a = true → eqv b a' = true) :
    hsetInsert eqv (hsetInsert eqv s a) a' = hsetInsert eqv s a := by
  by_cases hs : s.any (fun b => eqv b a) = true
  · have h2 : s.any (fun b => eqv b a') = true := by
      rw [List.any_eq_true] at hs ⊢
      obtain ⟨b, hb, hba⟩ := hs
      exact ⟨b, hb, htr b hba⟩
    simp [hsetInsert, hs, h2]
  · have h2 : (s ++ [a]).any (fun b => eqv b a') = true := by
      rw [List.any_eq_true]
      exact ⟨a, by simp, hEq⟩
    simp [hsetInsert, hs, h2]

theorem hsetInsert_fresh {α : Type} (eqv : α → α → Bool) (s : List α) (a : α)
    (h : s.any (fun b => eqv b a) = false) : hsetInsert eqv s a = s ++ [a] := by
  simp [hsetInsert, h]

theorem hset_c1 {α : Type} (eqv : α → α → Bool) (s : List α) (a a' : α)
    (hEq : eqv a a' = true) (htr : ∀ b, eqv b a = true → eqv b a' = true)
    (ha' : eqv a' a = true) (hne : a' ≠ a) :
    hsetInsert eqv (hsetInsert eqv s a) a' = hsetInsert eqv s a
    ∧ ((∀ x ∈ s, eqv x a = false) →
        hsetInsert eqv (hsetInsert eqv s a) a' = s ++ [a]
        ∧ a ∈ s ++ [a] ∧ a' ∉ s ++ [a]) := by
  have hnoop := hsetInsert_second_noop eqv s a a' hEq htr
  refine ⟨hnoop, ?_⟩
  intro hfresh
  have hfr : s.any (fun b => eqv b a) = false := by
    by_contra h
    rw [Bool.not_eq_false, List.any_eq_true] at h
    obtain ⟨b, hb, hba⟩ := h
    rw [hfresh b hb] at hba
    exact Bool.false_ne_true hba
  have hins := hsetInsert_fresh eqv s a hfr
  rw [hnoop, hins]
  refine ⟨rfl, by simp, ?_⟩
  intro hmem
  rcases List.mem_append.1 hmem with hm | hm
  · rw [hfresh a' hm] at ha'
    exact Bool.false_ne_true ha'
  · simp at hm
    exact hne hm

/-- C1 (amended).  For each keyed collection (headers and cookies keyed by
name, responses keyed by status, bodies keyed by mime): inserting A and then
a distinct key-equal A' is a no-op for the second insert on every record (the
set after both inserts equals the set after the first); and on a record whose
collection does not already contain the key, the collection afterwards is
exactly the old contents plus A with its originally inserted attributes —
containing A and not A'.  (On a record that already contains the key, the
first insert is itself a no-op and the pre-existing attributes win, which is
what forces the freshness proviso.) -/
theorem C1_first_wins_insertion :
    (∀ (r : RouteDocumentation) (a a' : DocumentedHeader), a'.name = a.name → a' ≠ a →
      ((r.header a).header a').headers = (r.header a).headers
      ∧ ((∀ x ∈ r.headers, x.name ≠ a.name) →
          ((r.header a).header a').headers = r.headers ++ [a]
          ∧ a ∈ ((r.header a).header a').headers
          ∧ a' ∉ ((r.header a).header a').headers))
    ∧ (∀ (r : RouteDocumentation) (a a' : DocumentedCookie), a'.name = a.name → a' ≠ a →
      ((r.cookie a).cookie a').cookies = (r.cookie a).cookies
      ∧ ((∀ x ∈ r.cookies, x.name ≠ a.name) →
          ((r.cookie a).cookie a').cookies = r.cookies ++ [a]
          ∧ a ∈ ((r.cookie a).cookie a').cookies
          ∧ a' ∉ ((r.cookie a).cookie a').cookies))
    ∧ (∀ (r : RouteDocumentation) (a a' : DocumentedResponse), a'.status = a.status → a' ≠ a →
      ((r.response a).response a').responses = (r.response a).responses
      ∧ ((∀ x ∈ r.responses, x.status ≠ a.status) →
          ((r.response a).response a').responses = r.responses ++ [a]
          ∧ a ∈ ((r.response a).response a').responses
          ∧ a' ∉ ((r.response a).response a').responses))
    ∧ (∀ (r : RouteDocumentation) (a a' : DocumentedBody), a'.mime = a.mime → a' ≠ a →
      ((r.body a).body a').bodies = (r.body a).bodies
      ∧ ((∀ x ∈ r.bodies, x.mime ≠ a.mime) →
          ((r.body a).body a').bodies = r.bodies ++ [a]
          ∧ a ∈ ((r.body a).body a').bodies
          ∧ a' ∉ ((r.body a).body a').bodies)) := by
  refine ⟨?_, ?_, ?_, ?_⟩
  · intro r a a' hkey hne
    have h := hset_c1 headerEq r.headers a a'
      (by simp [headerEq, hkey])
      (by intro b hb; simp [headerEq] at hb ⊢; rw [hkey]; exact hb)
      (by simp [headerEq, hkey]) hne
    have h1 : ((r.header a).header a').headers = (r.header a).headers := h.1
    refine ⟨h1, ?_⟩
    intro hfresh
    obtain ⟨he, hma, hma'⟩ := h.2 (by intro x hx; simp [headerEq]; exact hfresh x hx)
    have hrw : ((r.header a).header a').headers = r.headers ++ [a] := he
    exact ⟨hrw, by rw [hrw]; exact hma, by rw [hrw]; exact hma'⟩
  · intro r a a' hkey hne
    have h := hset_c1 cookieEq r.cookies a a'
      (by simp [cookieEq, hkey])
      (by intro b hb; simp [cookieEq] at hb ⊢; rw [hkey]; exact hb)
      (by simp [cookieEq, hkey]) hne
    have h1 : ((r.cookie a).cookie a').cookies = (r.cookie a).cookies := h.1
    refine ⟨h1, ?_⟩
    intro hfresh
    obtain ⟨he, hma, hma'⟩ := h.2 (by intro x hx; simp [cookieEq]; exact hfresh x hx)
    have hrw : ((r.cookie a).cookie a').cookies = r.cookies ++ [a] := he
    exact ⟨hrw, by rw [hrw]; exact hma, by rw [hrw]; exact hma'⟩
  · intro r a a' hkey hne
    have h := hset_c1 responseEq r.responses a a'
      (by simp [responseEq, hkey])
      (by intro b hb; simp [responseEq] at hb ⊢; rw [hkey]; exact hb)
      (by simp [responseEq, hkey]) hne
    have h1 : ((r.response a).response a').responses = (r.response a).responses := h.1
    refine ⟨h1, ?_⟩
    intro hfresh
    obtain ⟨he, hma, hma'⟩ := h.2 (by intro x hx; simp [responseEq]; exact hfresh x hx)
    have hrw : ((r.response a).response a').responses = r.responses ++ [a] := he
    exact ⟨hrw, by rw [hrw]; exact hma, by rw [hrw]; exact hma'⟩
  · intro r a a' hkey hne
    have h := hset_c1 bodyEq r.bodies a a'
      (by simp [bodyEq, hkey])
      (by intro b hb; simp [bodyEq] at hb ⊢; rw [hkey]; exact hb)
      (by simp [bodyEq, hkey]) hne
    have h1 : ((r.body a).body a').bodies = (r.body a).bodies := h.1
    refine ⟨h1, ?_⟩
    intro hfresh
    obtain ⟨he, hma, hma'⟩ := h.2 (by intro x hx; simp [bodyEq]; exact hfresh x hx)
    have hrw : ((r.body a).body a').bodies = r.bodies ++ [a] := he
    exact ⟨hrw, by rw [hrw]; exact hma, by rw [hrw]; exact hma'⟩

/-- C1 counterexample.  On a record whose headers already contain the name
"x", inserting A (same name, `required = false`) and then a distinct A' is a
double no-op: the collection still holds the pre-existing element and
contains neither A nor A', so the claim's universal quantification over every
record fails without a freshness proviso. -/
theorem C1_counterexample :
    ((document.header (chars "x")).required' false).name = (document.header (chars "x")).name
    ∧ (document.header (chars "x")).required' false ≠ document.header (chars "x")
    ∧ (((RouteDocumentation.default.header (document.header (chars "x"))).header
          ((document.header (chars "x")).required' false)).header
          ((document.header (chars "x")).description' (chars "d"))).headers
        = [document.header (chars "x")]
    ∧ (document.header (chars "x")).required' false
        ∉ (((RouteDocumentation.default.header (document.header (chars "x"))).header
              ((document.header (chars "x")).required' false)).header
              ((document.header (chars "x")).description' (chars "d"))).headers := by
  decide

/-- C1 witness: on the default record (whose collections are empty, so the
freshness proviso holds vacuously), first-wins insertion holds for headers
and responses with concrete key-equal distinct elements. -/
theorem C1_witness :
    (((RouteDocumentation.default.header (document.header (chars "x"))).header
        ((document.header (chars "x")).required' false)).headers
      = [document.header (chars "x")]
    ∧ document.header (chars "x")
        ∈ ((RouteDocumentation.default.header (document.header (chars "x"))).header
            ((document.header (chars "x")).required' false)).headers
    ∧ (document.header (chars "x")).required' false
        ∉ ((RouteDocumentation.default.header (document.header (chars "x"))).header
            ((document.header (chars "x")).required' false)).headers)
    ∧ ((RouteDocumentation.default.response (document.response 404 none)).response
        ((document.response 404 none).description' (chars "gone"))).responses
      = [document.response 404 none] := by
  have hh := (C1_first_wins_insertion.1 RouteDocumentation.default
    (document.header (chars "x")) ((document.header (chars "x")).required' false)
    (by decide) (by decide)).2 (by decide)
  have hrne : (document.response 404 none).description' (chars "gone")
      ≠ document.response 404 none := by
    simp [document.response, DocumentedResponse.description', DocumentedResponse.status',
      DocumentedResponse.default, chars]
  have hr := (C1_first_wins_insertion.2.2.1 RouteDocumentation.default
    (document.response 404 none)
    ((document.response 404 none).description' (chars "gone"))
    (by decide) hrne).2 (by simp [RouteDocumentation.default])
  refine ⟨⟨by simpa using hh.1, hh.2.1, hh.2.2⟩, by simpa using hr.1⟩

/-- C6 (amended).  `describe(filter)` invokes the filter's documentation half
on the default Route Documentation Record, whose method is POST, whose path
is the root path "/" — not the empty string — and whose collections are all
empty; no empty-path normalization is performed (none is needed, since the
initial path is already the root path). -/
theorem C6_describe_default :
    (∀ f : RouteDocumentation → List RouteDocumentation,
      document.describe f = f RouteDocumentation.default)
    ∧ RouteDocumentation.default.method = Method.POST
    ∧ RouteDocumentation.default.path = chars "/"
    ∧ RouteDocumentation.default.bodies = []
    ∧ RouteDocumentation.default.cookies = []
    ∧ RouteDocumentation.default.headers = []
    ∧ RouteDocumentation.default.parameters = []
    ∧ RouteDocumentation.default.queries = []
    ∧ RouteDocumentation.default.responses = []
    ∧ RouteDocumentation.default.tags = []
    ∧ RouteDocumentation.default.description = none :=
  ⟨fun _ => rfl, rfl, rfl, rfl, rfl, rfl, rfl, rfl, rfl, rfl, rfl⟩

/-- C6 counterexample.  The record `describe` starts from has path "/", not
the empty path the claim asserts; and no normalization of empty paths exists:
an explicit-documentation filter whose callback clears the path makes the
collector return a record whose path is empty. -/
theorem C6_counterexample :
    RouteDocumentation.default.path ≠ []
    ∧ (document.describe (explicitDescribe fun r => { r with path := [] })).map
        RouteDocumentation.path = [[]] :=
  ⟨by decide, rfl⟩

/-- C7.  Converting a primitive type descriptor yields a schema whose kind is
the matching scalar kind (Boolean, Number for Float, Integer, String), whose
`nullable` is `false` whenever the descriptor's nullable field is unset, and
whose `description` and `example` are copied through unchanged; in particular
converting the Integer descriptor and reading back its kind yields Integer. -/
theorem C7_primitive_conversion :
    (∀ (ty : InternalDocumentedType) (d : Option Str) (e : Option JsValue)
        (nb : Option Bool),
      documented_type_to_openapi (.Primitive ty d e nb)
        = .mk ⟨d, e, nb.getD false⟩ (.type (scalarApiType ty))
      ∧ (documented_type_to_openapi (.Primitive ty d e none)).schema_data.nullable = false)
    ∧ (documented_type_to_openapi document.integer).schema_kind = .type .integer
    ∧ (documented_type_to_openapi document.integer).schema_data.nullable = false := by
  refine ⟨?_, ?_, ?_⟩
  · intro ty d e nb
    constructor
    · cases ty <;> simp [documented_type_to_openapi, scalarApiType]
    · cases ty <;> simp [documented_type_to_openapi, Schema.schema_data]
  · simp [document.integer, documented_type_to_openapi, Schema.schema_kind]
  · simp [document.integer, documented_type_to_openapi, Schema.schema_data]

/-- C8.  The MAP combinator's documentation pass equals the flattened
concatenation, over each record produced by the child filter's documentation
pass, of the output type's own documentation contribution applied to that
record; and when the output type contributes nothing (its contribution is the
pass-through singleton), the child's records pass through unchanged. -/
theorem C8_map_document :
    (∀ (filterDoc replyDoc : RouteDocumentation → List RouteDocumentation)
        (item : RouteDocumentation),
      mapDocument filterDoc replyDoc item = ((filterDoc item).map replyDoc).flatten)
    ∧ (∀ (filterDoc : RouteDocumentation → List RouteDocumentation)
        (item : RouteDocumentation),
      mapDocument filterDoc trivialReplyDoc item = filterDoc item) := by
  constructor
  · intro fd rd item
    rw [mapDocument, List.flatMap_def]
  · intro fd item
    rw [mapDocument]
    have ht : trivialReplyDoc = fun x => [x] := rfl
    rw [ht]
    simp

/-! The slot update of `to_openapi` and its first-wins behaviour. -/

theorem slotUpdate_isSome (m : Method) (op : Operation) (item : PathItem) :
    (slotUpdate m op item).isSome = m.isSupported := by
  cases m <;> rfl

theorem slotGet_empty (m : Method) : slotGet m PathItem.empty = none := by
  cases m <;> rfl

theorem slotGet_slotUpdate_self {m : Method} {op : Operation} {item item' : PathItem}
    (h : slotUpdate m op item = some item') :
    slotGet m item' = (slotGet m item).or (some op) := by
  cases m <;> first
    | (injection h with h2
       subst h2
       rfl)
    | exact Option.noConfusion h

theorem slotGet_slotUpdate_ne {m m' : Method} {op : Operation} {item item' : PathItem}
    (h : slotUpdate m op item = some item') (hne : m' ≠ m) :
    slotGet m' item' = slotGet m' item := by
  cases m <;> first
    | (injection h with h2
       subst h2
       cases m' <;> first | exact absurd rfl hne | rfl)
    | exact Option.noConfusion h

theorem assocFind_assocSet_self (k : Str) (v : β) : ∀ l : List (Str × β),
    assocFind k (assocSet k v l) = some v := by
  intro l
  induction l with
  | nil => simp [assocSet, assocFind]
  | cons p l ih =>
    cases p with
    | mk k0 v0 =>
      by_cases h0 : k0 = k
      · simp [assocSet, assocFind, h0]
      · simp [assocSet, assocFind, h0, ih]

theorem assocFind_assocSet_ne {k k' : Str} (hne : k ≠ k') (v : β) : ∀ l : List (Str × β),
    assocFind k (assocSet k' v l) = assocFind k l := by
  intro l
  induction l with
  | nil => simp [assocSet, assocFind, Ne.symm hne]
  | cons p l ih =>
    cases p with
    | mk k0 v0 =>
      by_cases h0 : k0 = k'
      · subst h0
        simp [assocSet, assocFind, Ne.symm hne]
      · by_cases h1 : k0 = k <;> simp [assocSet, assocFind, h0, h1, ih, hne]

theorem toOpenapiPaths_slot : ∀ (routes : List RouteDocumentation)
    (paths0 paths : List (Str × PathItem)),
    routes.foldlM (fun paths route =>
        (slotUpdate route.method (buildOperation route)
          ((assocFind route.pretty_path paths).getD PathItem.empty)).map
          fun item => assocSet route.pretty_path item paths) paths0 = some paths →
    ∀ (p : Str) (m : Method),
      (assocFind p paths).bind (slotGet m)
        = ((assocFind p paths0).bind (slotGet m)).or
            ((routes.find? fun r => decide (r.pretty_path = p) && decide (r.method = m)).map
              buildOperation) := by
  intro routes
  induction routes with
  | nil =>
    intro paths0 paths h p m
    rw [List.foldlM_nil] at h
    obtain rfl : paths0 = paths := by simpa using h
    simp [List.find?]
  | cons route rest ih =>
    intro paths0 paths h p m
    rw [List.foldlM_cons] at h
    cases hstep : slotUpdate route.method (buildOperation route)
        ((assocFind route.pretty_path paths0).getD PathItem.empty) with
    | none =>
      rw [hstep] at h
      exact Option.noConfusion h
    | some item' =>
      rw [hstep] at h
      have h' : rest.foldlM (fun paths route =>
          (slotUpdate route.method (buildOperation route)
            ((assocFind route.pretty_path paths).getD PathItem.empty)).map
            fun item => assocSet route.pretty_path item paths)
          (assocSet route.pretty_path item' paths0) = some paths := h
      have hrest := ih (assocSet route.pretty_path item' paths0) paths h' p m
      by_cases hp : route.pretty_path = p
      · have hfind : assocFind p (assocSet route.pretty_path item' paths0) = some item' := by
          rw [hp]
          exact assocFind_assocSet_self p item' paths0
      
        by_cases hm : route.method = m
        · have hpred : (fun r => decide (r.pretty_path = p) && decide (r.method = m)) route
              = true := by simp [hp, hm]
          have hfound : (List.find? (fun r => decide (r.pretty_path = p)
              && decide (r.method = m)) (route :: rest)) = some route :=
            List.find?_cons_of_pos rest hpred
          have hself : slotGet m item'
              = (slotGet m ((assocFind route.pretty_path paths0).getD PathItem.empty)).or
                  (some (buildOperation route)) := by
            rw [← hm]
            exact slotGet_slotUpdate_self hstep
          have hmid : (assocFind p paths).bind (slotGet m)
              = (slotGet m item').or
                  ((rest.find? fun r => decide (r.pretty_path = p)
                    && decide (r.method = m)).map buildOperation) := by
            rw [hrest, hfind]
            rfl
          rw [hmid, hself, hfound, Option.or_assoc]
          have habs : ∀ y : Option Operation,
              (some (buildOperation route)).or y = some (buildOperation route) := fun _ => rfl
          rw [habs]
          rw [hp]
          cases hf : assocFind p paths0 with
          | none => simp [slotGet_empty]
          | some i0 => rfl
        · have hfound : (List.find? (fun r => decide (r.pretty_path = p)
              && decide (r.method = m)) (route :: rest))
              = rest.find? fun r => decide (r.pretty_path = p) && decide (r.method = m) := by
            rw [List.find?_cons]
            simp [hm]
          have hne' : slotGet m item'
              = slotGet m ((assocFind route.pretty_path paths0).getD PathItem.empty) :=
            slotGet_slotUpdate_ne hstep (fun he => hm he.symm)
          have hmid : (assocFind p paths).bind (slotGet m)
              = (slotGet m item').or
                  ((rest.find? fun r => decide (r.pretty_path = p)
                    && decide (r.method = m)).map buildOperation) := by
            rw [hrest, hfind]
            rfl
          rw [hmid, hne', hfound, hp]
          cases hf : assocFind p paths0 with
          | none => simp [slotGet_empty]
          | some i0 => rfl
      · have hfind : assocFind p (assocSet route.pretty_path item' paths0)
            = assocFind p paths0 :=
          assocFind_assocSet_ne (fun he => hp he.symm) item' paths0
        have hfound : (List.find? (fun r => decide (r.pretty_path = p)
            && decide (r.method = m)) (route :: rest))
            = rest.find? fun r => decide (r.pretty_path = p) && decide (r.method = m) := by
          rw [List.find?_cons]
          simp [hp]
        rw [hrest, hfind, hfound]

/-- C3.  When `to_openapi` succeeds, the operation stored in the slot for a
given pretty path and method is exactly `buildOperation` of the first record
in iteration order whose pretty path and method match; all later records for
the same (path, method) are dropped.  In particular a sequence containing two
or more records with the same pretty path and method yields exactly one
operation for that slot, built from the first such record. -/
theorem C3_first_record_wins (routes : List RouteDocumentation)
    (paths : List (Str × PathItem)) (h : toOpenapiPaths routes = some paths)
    (p : Str) (m : Method) :
    (assocFind p paths).bind (slotGet m)
      = ((routes.find? fun r => decide (r.pretty_path = p) && decide (r.method = m)).map
          buildOperation) := by
  have := toOpenapiPaths_slot routes [] paths h p m
  simpa [assocFind] using this

/-- C3 witness: two records with pretty path "/" and method POST, the first
carrying a description; the "/"-POST slot holds the operation built from the
first record. -/
theorem C3_witness :
    (toOpenapiPaths wRoutes).map
        (fun ps => (assocFind (chars "/") ps).bind (slotGet Method.POST))
      = some (some (buildOperation wR1)) := by
  obtain ⟨paths, h⟩ : ∃ ps, toOpenapiPaths wRoutes = some ps := ⟨_, rfl⟩
  rw [h]
  have h2 := C3_first_record_wins wRoutes paths h (chars "/") Method.POST
  rw [show (some paths).map
      (fun ps => (assocFind (chars "/") ps).bind (slotGet Method.POST))
      = some ((assocFind (chars "/") paths).bind (slotGet Method.POST)) from rfl, h2]
  rfl

/-! Response ordering in a built operation. -/

/-- C4.  For every record whose response statuses are pairwise distinct (the
invariant of the status-keyed response set), the responses of the operation
built by `to_openapi` appear in strictly ascending numeric order of status
code, and they are a permutation of the record's responses — regardless of
insertion order. -/
theorem C4_responses_sorted (r : RouteDocumentation)
    (h : (r.responses.map DocumentedResponse.status).Nodup) :
    List.Sorted (· < ·) ((buildOperation r).responses.map Prod.fst)
    ∧ ((buildOperation r).responses.map Prod.fst).Perm
        (r.responses.map DocumentedResponse.status) := by
  have hmap : (buildOperation r).responses.map Prod.fst
      = (r.responses.mergeSort fun a b => decide (a.status ≤ b.status)).map
          DocumentedResponse.status := by
    show ((r.responses.mergeSort fun a b => decide (a.status ≤ b.status)).map _).map
        Prod.fst = _
    rw [List.map_map]
    exact List.map_congr_left fun resp _ => rfl
  have hperm0 : (r.responses.mergeSort fun a b => decide (a.status ≤ b.status)).Perm
      r.responses := List.mergeSort_perm r.responses _
  have hperm : ((buildOperation r).responses.map Prod.fst).Perm
      (r.responses.map DocumentedResponse.status) := by
    rw [hmap]
    exact hperm0.map DocumentedResponse.status
  refine ⟨?_, hperm⟩
  have hpw := @List.sorted_mergeSort DocumentedResponse
    (fun a b => decide (a.status ≤ b.status))
    (fun a b c h1 h2 => by simp at h1 h2 ⊢; omega)
    (fun a b => by simp [Bool.or_eq_true]; omega) r.responses
  have hpw2 : List.Pairwise (fun a b : DocumentedResponse => a.status ≤ b.status)
      (r.responses.mergeSort fun a b => decide (a.status ≤ b.status)) :=
    hpw.imp fun hab => by simpa using hab
  have hnd : ((r.responses.mergeSort fun a b => decide (a.status ≤ b.status)).map
      DocumentedResponse.status).Nodup := (hperm0.map _).nodup_iff.mpr h
  rw [hmap]
  have hle : List.Pairwise (fun a b : Nat => a ≤ b)
      ((r.responses.mergeSort fun a b => decide (a.status ≤ b.status)).map
        DocumentedResponse.status) := List.pairwise_map.mpr hpw2
  exact (hle.and hnd).imp fun hab => lt_of_le_of_ne hab.1 hab.2

/-- C4 witness: inserting a 404 response and then a 200 response still yields
statuses in ascending order 200 before 404 in the built operation. -/
theorem C4_witness :
    (wC4r.responses.map DocumentedResponse.status).Nodup
    ∧ List.Sorted (· < ·) ((buildOperation wC4r).responses.map Prod.fst)
    ∧ ((buildOperation wC4r).responses.map Prod.fst).Perm
        (wC4r.responses.map DocumentedResponse.status) := by
  have e : wC4r.responses.map DocumentedResponse.status = [404, 200] := by
    simp [wC4r, RouteDocumentation.response, hsetInsert, responseEq, document.response,
      DocumentedResponse.status', DocumentedResponse.body', DocumentedResponse.default,
      RouteDocumentation.default]
  have hnd : (wC4r.responses.map DocumentedResponse.status).Nodup := by
    rw [e]
    decide
  exact ⟨hnd, (C4_responses_sorted wC4r hnd).1, (C4_responses_sorted wC4r hnd).2⟩

/-! Unsupported methods are fatal for the converter. -/

theorem toOpenapiPaths_isSome_aux : ∀ (routes : List RouteDocumentation)
    (paths0 : List (Str × PathItem)),
    (routes.foldlM (fun paths route =>
        (slotUpdate route.method (buildOperation route)
          ((assocFind route.pretty_path paths).getD PathItem.empty)).map
          fun item => assocSet route.pretty_path item paths) paths0).isSome = true
    ↔ ∀ r ∈ routes, r.method.isSupported = true := by
  intro routes
  induction routes with
  | nil =>
    intro paths0
    rw [List.foldlM_nil]
    simp
  | cons route rest ih =>
    intro paths0
    rw [List.foldlM_cons]
    cases hstep : slotUpdate route.method (buildOperation route)
        ((assocFind route.pretty_path paths0).getD PathItem.empty) with
    | none =>
      have hm : route.method.isSupported = false := by
        have h2 := slotUpdate_isSome route.method (buildOperation route)
          ((assocFind route.pretty_path paths0).getD PathItem.empty)
        rw [hstep] at h2
        exact h2.symm
      constructor
      · intro hcontra
        have hfalse : (false : Bool) = true := hcontra
        exact Bool.noConfusion hfalse
      · intro hall
        have h3 := hall route (List.mem_cons_self _ _)
        rw [hm] at h3
        exact Bool.noConfusion h3
    | some item' =>
      have hm : route.method.isSupported = true := by
        have h2 := slotUpdate_isSome route.method (buildOperation route)
          ((assocFind route.pretty_path paths0).getD PathItem.empty)
        rw [hstep] at h2
        exact h2.symm
      constructor
      · intro hc
        have hc' : (rest.foldlM (fun paths route =>
            (slotUpdate route.method (buildOperation route)
              ((assocFind route.pretty_path paths).getD PathItem.empty)).map
              fun item => assocSet route.pretty_path item paths)
            (assocSet route.pretty_path item' paths0)).isSome = true := hc
        intro r hr
        rcases List.mem_cons.mp hr with hr1 | hr2
        · rw [hr1]
          exact hm
        · exact (ih (assocSet route.pretty_path item' paths0)).mp hc' r hr2
      · intro hall
        have h3 : (rest.foldlM (fun paths route =>
            (slotUpdate route.method (buildOperation route)
              ((assocFind route.pretty_path paths).getD PathItem.empty)).map
              fun item => assocSet route.pretty_path item paths)
            (assocSet route.pretty_path item' paths0)).isSome = true :=
          (ih (assocSet route.pretty_path item' paths0)).mpr
            fun r hr => hall r (List.mem_cons_of_mem _ hr)
        exact h3

/-- C9.  The eight methods GET, POST, PUT, DELETE, HEAD, OPTIONS, PATCH and
TRACE are exactly the methods with a schema-document slot, and `to_openapi`
is defined (returns a document rather than hitting the `unimplemented!()`
panic, embedded as `none`) exactly when every input record's method is in
that closed set; under that precondition the fatal branch is unreachable. -/
theorem C9_unsupported_method_fatal :
    (∀ m : Method, m.isSupported = true ↔
      m ∈ ([.GET, .POST, .PUT, .DELETE, .HEAD, .OPTIONS, .PATCH, .TRACE] : List Method))
    ∧ ∀ routes : List RouteDocumentation,
        (to_openapi routes).isSome = true ↔ ∀ r ∈ routes, r.method.isSupported = true := by
  constructor
  · intro m
    cases m <;> simp [Method.isSupported]
  · intro routes
    have h1 : (to_openapi routes).isSome = (toOpenapiPaths routes).isSome := by
      rw [to_openapi]
      cases toOpenapiPaths routes <;> rfl
    rw [h1]
    exact toOpenapiPaths_isSome_aux routes []
